import Mathlib

/-!
Verification development for the wav2lip inference orchestration layer
(vendor/wav2lip/inference_api.py).  The Python code is embedded shallowly:

* machine floats that only ever carry exact small rationals (box
  coordinates, blend weights, the mel index multiplier 80/fps) are
  modelled as rationals, with the video frame rate given as a positive
  rational num/den;
* numpy arrays are modelled as lists or as functions out of Nat;
* Python int() truncation and numpy negative-index slicing are modelled
  explicitly where the code relies on them;
* the external collaborators (face detector network, lip-sync generator,
  Gaussian blur kernel produced by the imaging library) are parameters
  of the definitions, constrained only by the properties the library
  documents for them.
-/

namespace W2L

/-- mel_step_size = 16 (inference_api.py line 79). -/
def melStepSize : ℕ := 16

/-- start_idx = int(i * mel_idx_multiplier) with mel_idx_multiplier = 80/fps
and fps = num/den: the floor of i * 80 * den / num, which on naturals is
plain division (inference_api.py lines 296-299). -/
def melStart (num den i : ℕ) : ℕ := i * 80 * den / num

/-- Exit condition of the chunking loop: start_idx + mel_step_size > len(mel[0])
(inference_api.py line 300). -/
def melStop (num den T i : ℕ) : Bool := decide (T < melStart num den i + melStepSize)

/-- Fuelled linear search for the first index satisfying p, starting at i.
Models the while-loop index of the chunking loop. -/
def firstIdx (p : ℕ → Bool) : ℕ → ℕ → ℕ
  | 0, i => i
  | fuel + 1, i => if p i then i else firstIdx p fuel (i + 1)

/-- The loop index at which the mel chunking loop breaks. -/
def melStopIdx (num den T : ℕ) : ℕ :=
  firstIdx (melStop num den T) (num * (T + 1) + 1) 0

/-- Start column of the final chunk: mel[:, len(mel[0]) - mel_step_size:]
(inference_api.py line 301).  For T >= 16 this is T - 16; for T < 16 the
Python slice index T - 16 is negative and numpy resolves it to
max(0, T + (T - 16)), i.e. the truncated subtraction 2*T - 16. -/
def melFinalStart (T : ℕ) : ℕ := if melStepSize ≤ T then T - melStepSize else 2 * T - melStepSize

/-- The list of mel chunks produced by the loop at inference_api.py lines
295-304, with the mel matrix represented by its list of columns: one
16-column slice per loop index before the break, then the final tail slice. -/
def melChunks {α : Type} (melCols : List α) (num den : ℕ) : List (List α) :=
  ((List.range (melStopIdx num den melCols.length)).map fun i =>
    (melCols.drop (melStart num den i)).take melStepSize)
  ++ [melCols.drop (melFinalStart melCols.length)]

/-! Temporal face tracker (face_detect, inference_api.py lines 104-179) -/

/-- Sampled frame indices (inference_api.py lines 114-122): every frame when
n <= 10, otherwise range(0, n, sample_rate) with sample_rate = max(1, n // 8),
appending the last frame index when missing. -/
def sampleIndices (n : ℕ) : List ℕ :=
  if n ≤ 10 then List.range n
  else
    let s := max 1 (n / 8)
    let base := (List.range ((n + s - 1) / s)).map (· * s)
    if base.getLastD 0 = n - 1 then base else base ++ [n - 1]

/-- A face box as a 4-vector of coordinates [x1, y1, x2, y2]; detector
rectangles use the same layout. -/
abbrev Box : Type := Fin 4 → ℚ

/-- The all-zero box (np.zeros row). -/
def box0 : Box := fun _ => 0

/-- Padding and one-sided clamping of a detector rectangle
(inference_api.py lines 147-156): y1 = max(0, rect[1] - pady1),
y2 = min(H, rect[3] + pady2), x1 = max(0, rect[0] - padx1),
x2 = min(W, rect[2] + padx2), stored as [x1, y1, x2, y2]. -/
def clampBox (W H pady1 pady2 padx1 padx2 : ℚ) (r : Box) : Box :=
  ![max 0 (r 0 - padx1), max 0 (r 1 - pady1), min W (r 2 + padx2), min H (r 3 + pady2)]

/-- Linear interpolation box_a * (1 - t) + box_b * t (inference_api.py line 167). -/
def lerpBox (t : ℚ) (a b : Box) : Box := (1 - t) • a + t • b

/-- Pointwise array write, modelling all_boxes[j] = v. -/
def updFun {β : Type} (f : ℕ → β) (j : ℕ) (v : β) : ℕ → β :=
  fun x => if x = j then v else f x

/-- Inner interpolation loop (inference_api.py lines 165-167): for j in
range(idx_a, idx_b + 1), all_boxes[j] = lerp((j - idx_a) / max(1, idx_b - idx_a)). -/
def interpOne (a b : ℕ) (Ba Bb : Box) (g : ℕ → Box) : ℕ → Box :=
  (List.range (b + 1 - a)).foldl
    (fun f k => updFun f (a + k) (lerpBox ((k : ℚ) / max 1 ((b : ℚ) - (a : ℚ))) Ba Bb)) g

/-- Consecutive (sample index, box) pairs visited by the outer loop at
inference_api.py lines 160-164. -/
def consecPairs : List ℕ → List Box → List (ℕ × ℕ × Box × Box)
  | a :: b :: restS, Ba :: Bb :: restB => (a, b, Ba, Bb) :: consecPairs (b :: restS) (Bb :: restB)
  | _, _ => []

/-- Outer interpolation loop over consecutive sample pairs. -/
def interpAll (ps : List (ℕ × ℕ × Box × Box)) (g : ℕ → Box) : ℕ → Box :=
  ps.foldl (fun f q => interpOne q.1 q.2.1 q.2.2.1 q.2.2.2 f) g

/-- The all_boxes array after interpolation (initialised to np.zeros, line 159)
and the final write all_boxes[sample_indices[-1]] = sampled_boxes[-1] (line 169). -/
def allBoxesFun (samples : List ℕ) (sboxes : List Box) : ℕ → Box :=
  updFun (interpAll (consecPairs samples sboxes) (fun _ => box0))
    (samples.getLastD 0) (sboxes.getLastD box0)

/-- The per-frame interpolated box list. -/
def trackedBoxList (n : ℕ) (samples : List ℕ) (sboxes : List Box) : List Box :=
  (List.range n).map (allBoxesFun samples sboxes)

/-- Sum of a list of boxes, coordinatewise. -/
def boxListSum (l : List Box) : Box := l.foldl (· + ·) box0

/-- np.mean(window, axis=0): coordinatewise arithmetic mean. -/
def meanBoxes (l : List Box) : Box := ((l.length : ℚ))⁻¹ • boxListSum l

/-- Start of the Python slice boxes[len(boxes) - T:]: for T <= n this is n - T;
for T > n the index n - T is negative and resolves to max(0, 2n - T), which on
naturals is the truncated subtraction 2*n - T. -/
def tailStart (n T : ℕ) : ℕ := if T ≤ n then n - T else 2 * n - T

/-- One smoothing window mean over the CURRENT array state
(get_smoothened_boxes, inference_api.py lines 96-101): the tail slice when
i + T > len(boxes), else boxes[i : i + T]. -/
def windowMean (T : ℕ) (cur : List Box) (i : ℕ) : Box :=
  if cur.length < i + T then meanBoxes (cur.drop (tailStart cur.length T))
  else meanBoxes ((cur.drop i).take T)

/-- The in-place smoothing loop: boxes[i] = np.mean(window) for i = 0, 1, ...,
reading each window from the partially updated array. -/
def smoothGo (T : ℕ) : ℕ → ℕ → List Box → List Box
  | 0, _, cur => cur
  | fuel + 1, i, cur => smoothGo T fuel (i + 1) (cur.set i (windowMean T cur i))

/-- get_smoothened_boxes(boxes, T) (inference_api.py lines 95-102). -/
def getSmoothenedBoxes (boxes : List Box) (T : ℕ) : List Box :=
  smoothGo T boxes.length 0 boxes

/-- The box pipeline of face_detect after the detector has produced one
rectangle per sampled frame: pad and clamp, interpolate to all n frames,
then smooth with T = 5 unless nosmooth (inference_api.py lines 147-172). -/
def faceDetectBoxes (W H pady1 pady2 padx1 padx2 : ℚ) (rects : List Box) (n : ℕ)
    (nosmooth : Bool) : List Box :=
  let sboxes := rects.map (clampBox W H pady1 pady2 padx1 padx2)
  let tracked := trackedBoxList n (sampleIndices n) sboxes
  if nosmooth then tracked else getSmoothenedBoxes tracked 5

/-- Python int(): truncation toward zero (used on box coordinates at line 175). -/
def pyInt (q : ℚ) : ℤ := if 0 ≤ q then ⌊q⌋ else ⌈q⌉

/-- Upper bound for each box coordinate: W for x-coordinates (indices 0 and 2),
H for y-coordinates (indices 1 and 3). -/
def coordBound (W H : ℚ) (i : Fin 4) : ℚ := if i = 0 ∨ i = 2 then W else H

/-- A box lies within the frame: every coordinate is between 0 and the frame
extent on its axis (x2 = W / y2 = H are the admissible exclusive ends). -/
def boxInFrame (W H : ℚ) (b : Box) : Prop :=
  ∀ i, 0 ≤ b i ∧ b i ≤ coordBound W H i

instance boxInFrameDec (W H : ℚ) (b : Box) : Decidable (boxInFrame W H b) :=
  inferInstanceAs (Decidable (∀ i, 0 ≤ b i ∧ b i ≤ coordBound W H i))

/-- State of the boxes array just before smoothing step j: the first j entries
already replaced, the rest still the interpolated originals. -/
def smoothMidState (T : ℕ) (boxes : List Box) (j : ℕ) : List Box :=
  smoothGo T j 0 boxes

/-! Batch windower (datagen, inference_api.py lines 181-211) -/

/-- Chunking a list into contiguous groups of size bs (fuelled by the list
length); for bs >= 1 this is exactly the batch grouping of datagen, which
yields a full batch whenever the accumulator reaches bs and a final partial
batch for the remainder. -/
def chunkAux {β : Type} (bs : ℕ) : ℕ → List β → List (List β)
  | _, [] => []
  | 0, _ => []
  | fuel + 1, l => l.take bs :: chunkAux bs fuel (l.drop bs)

def chunkList {β : Type} (bs : ℕ) (l : List β) : List (List β) := chunkAux bs l.length l

/-- The (mel, frame, face_det_result) triples produced by datagen, in order:
for i, m in enumerate(mels), idx = i % len(frames)
(inference_api.py lines 185-194). -/
def datagenTriples {F M D : Type} (frames : List F) (mels : List M) (dets : List D)
    (f0 : M × F × D) : List (M × F × D) :=
  (List.range mels.length).map fun i =>
    (mels.getD i f0.1, frames.getD (i % frames.length) f0.2.1,
      dets.getD (i % frames.length) f0.2.2)

/-- Number of output frames written by the inference loop: one out.write per
triple, summed over batches (inference_api.py lines 347-406). -/
def runOutputCount {F M D : Type} (frames : List F) (mels : List M) (dets : List D)
    (f0 : M × F × D) (bs : ℕ) : ℕ :=
  ((chunkList bs (datagenTriples frames mels dets f0)).map List.length).sum

/-! Frame compositor (inference_api.py lines 356-400) -/

/-- blend_start = int(h_face * 0.35) (inference_api.py line 367). -/
def blendStart (h : ℕ) : ℕ := 35 * h / 100

/-- blend_end = int(h_face * 0.55) (inference_api.py line 368). -/
def blendEnd (h : ℕ) : ℕ := 55 * h / 100

/-- Vertical profile of the mask before feathering (lines 365-376): 0 above
blend_start, a linear ramp on [blend_start, blend_end), 1 below blend_end. -/
def vProfile (h : ℕ) (i : ℕ) : ℚ :=
  if i < blendStart h then 0
  else if i < blendEnd h then
    ((i : ℚ) - (blendStart h : ℚ)) / ((blendEnd h : ℚ) - (blendStart h : ℚ))
  else 1

/-- edge_w = max(1, int(w_face * 0.15)) (inference_api.py line 379). -/
def edgeW (w : ℕ) : ℕ := max 1 (15 * w / 100)

/-- Horizontal feather factor accumulated on column j by the loop at lines
380-383: mask[:, col] *= col/edge_w and mask[:, w-1-col] *= col/edge_w for
col in range(edge_w); a column hit by both writes keeps both factors. -/
def uProfile (w : ℕ) (j : ℕ) : ℚ :=
  (if j < edgeW w then (j : ℚ) / (edgeW w : ℚ) else 1) *
    (if w - 1 - j < edgeW w then ((w - 1 - j : ℕ) : ℚ) / (edgeW w : ℚ) else 1)

/-- The mask before the Gaussian blur: vertical ramp times horizontal feather. -/
def maskBase (h w : ℕ) (i j : ℕ) : ℚ := vProfile h i * uProfile w j

/-- Radius of the 15x15 Gaussian blur kernel of cv2.GaussianBlur(mask, (15,15), 5). -/
def kRad : ℕ := 7

/-- cv2 BORDER_REFLECT_101 index folding for an axis of length n: indices are
reflected about the border samples without repeating them, i.e. folded through
the triangle map of period 2n - 2; a length-1 axis always resolves to 0. -/
def reflIdx (n : ℕ) (p : ℤ) : ℕ :=
  if n ≤ 1 then 0
  else if p % (2 * (n : ℤ) - 2) ≤ (n : ℤ) - 1 then (p % (2 * (n : ℤ) - 2)).toNat
  else (2 * (n : ℤ) - 2 - p % (2 * (n : ℤ) - 2)).toNat

/-- One-dimensional pass of the separable blur with reflected border. -/
def blur1D (wk : ℤ → ℚ) (n : ℕ) (v : ℕ → ℚ) (r : ℕ) : ℚ :=
  ∑ k ∈ Finset.Icc (-(kRad : ℤ)) (kRad : ℤ), wk k * v (reflIdx n ((r : ℤ) + k))

/-- The blurred blend mask: separable convolution of maskBase with the kernel
wk along both axes, with reflected borders (cv2.GaussianBlur, line 386). -/
def blurredMask (wk : ℤ → ℚ) (h w : ℕ) (r c : ℕ) : ℚ :=
  ∑ k ∈ Finset.Icc (-(kRad : ℤ)) (kRad : ℤ), ∑ l ∈ Finset.Icc (-(kRad : ℤ)) (kRad : ℤ),
    wk k * wk l * maskBase h w (reflIdx h ((r : ℤ) + k)) (reflIdx w ((c : ℤ) + l))

/-- Indicator that the reflected index of p clears the threshold q (helper for
the monotonicity analysis of the blurred mask). -/
def stepInd (n q : ℕ) (p : ℤ) : ℚ := if q ≤ reflIdx n p then 1 else 0

/-- Kernel mass weighted by the threshold indicator at offset r (helper). -/
def stepSum (wk : ℤ → ℚ) (n q : ℕ) (r : ℤ) : ℚ :=
  ∑ k ∈ Finset.Icc (-(kRad : ℤ)) (kRad : ℤ), wk k * stepInd n q (r + k)

/-- Kernel symmetry: cv2.getGaussianKernel coefficients are even in the index. -/
def KernelSym (wk : ℤ → ℚ) : Prop := ∀ k : ℤ, wk (-k) = wk k

/-- Kernel nonnegativity. -/
def KernelNonneg (wk : ℤ → ℚ) : Prop := ∀ k : ℤ, 0 ≤ wk k

/-- The kernel is non-increasing in the absolute index, as the samples of a
Gaussian are (cv2.getGaussianKernel returns samples of exp(-x^2/(2 sigma^2))). -/
def KernelUnimodal (wk : ℤ → ℚ) : Prop := ∀ i j : ℤ, i.natAbs ≤ j.natAbs → wk j ≤ wk i

/-- The kernel vanishes outside radius kRad. -/
def KernelSupp (wk : ℤ → ℚ) : Prop := ∀ k : ℤ, (kRad : ℤ) < |k| → wk k = 0

/-- The kernel coefficients sum to 1 (cv2 normalises the Gaussian kernel). -/
def KernelNorm (wk : ℤ → ℚ) : Prop :=
  ∑ k ∈ Finset.Icc (-(kRad : ℤ)) (kRad : ℤ), wk k = 1

/-- Total kernel mass lying on the residue class of c modulo P (the P-wrapped
kernel). -/
def wrapW (wk : ℤ → ℚ) (P c : ℤ) : ℚ :=
  ∑ k ∈ Finset.Icc (-(kRad : ℤ)) (kRad : ℤ), if (k - c) % P = 0 then wk k else 0

/-- Circular distance of c to the residue class of 0 modulo P. -/
def distP (P c : ℤ) : ℤ := min (c % P) (P - c % P)

/-- A kernel is P-wrapped unimodal when residue classes closer to 0 carry at
least as much kernel mass.  Any unimodal kernel has this property when P is at
least the kernel diameter (no wrapping); for smaller P it can fail, also for
the cv2 Gaussian kernel. -/
def KernelWrapUnimodal (wk : ℤ → ℚ) (P : ℤ) : Prop :=
  ∀ a b : ℤ, distP P a ≤ distP P b → wrapW wk P b ≤ wrapW wk P a

/-- A concrete kernel with the documented Gaussian-kernel properties
(symmetric, nonnegative, normalised, non-increasing in the absolute index):
the triangular kernel of radius 7, used to instantiate witnesses. -/
def wkTri (k : ℤ) : ℚ := if k.natAbs ≤ 7 then (8 - (k.natAbs : ℚ)) / 64 else 0

/-- Correctly rounded coefficients of the cv2 Gaussian blur kernel
getGaussianKernel(15, 5): round(1e6 * exp(-k^2 / 50)) for offset k. -/
def gaussCoef : ℕ → ℚ
  | 0 => 1000000
  | 1 => 980199
  | 2 => 923116
  | 3 => 835270
  | 4 => 726149
  | 5 => 606531
  | 6 => 486752
  | 7 => 375311
  | _ => 0

/-- The normalised rational Gaussian kernel (the coefficients above divided by
their total 1000000 + 2 * 4933328), used to exhibit the small-height failure
of mask monotonicity. -/
def gaussK (k : ℤ) : ℚ := gaussCoef k.natAbs / 10866656

/-- np.clip(q, 0, 255).astype(np.uint8): clamp then truncate to an integer. -/
def pyByteClip (q : ℚ) : ℤ := ⌊max 0 (min 255 q)⌋

/-- A frame as a pixel channel map (row, column) -> byte value. -/
abbrev Frame : Type := ℕ → ℕ → ℤ

/-- Compositing of one generated patch into (a copy of) its source frame
(inference_api.py lines 356-399): inside the box the pixel becomes
clip(original * (1 - mask) + generated * mask); outside it is the source
pixel.  pRes is the generated patch already resized to (x2-x1, y2-y1). -/
def composite (wk : ℤ → ℚ) (pRes f : Frame) (y1 y2 x1 x2 : ℕ) : Frame :=
  fun r c =>
    if y1 ≤ r ∧ r < y2 ∧ x1 ≤ c ∧ c < x2 then
      pyByteClip ((f r c : ℚ) * (1 - blurredMask wk (y2 - y1) (x2 - x1) (r - y1) (c - x1))
        + (pRes (r - y1) (c - x1) : ℚ) * blurredMask wk (y2 - y1) (x2 - x1) (r - y1) (c - x1))
    else f r c

/-! Detection batch loop with halving retry (inference_api.py lines 128-142) -/

/-- One pass over the batches: predictions.extend per successful batch; a
batch on which the detector raises aborts the pass, keeping the predictions
already extended.  Returns (extended predictions, completed?). -/
def detBatches {I P : Type} (det : List I → Option (List P)) :
    List (List I) → List P × Bool
  | [] => ([], true)
  | b :: rest =>
    match det b with
    | none => ([], false)
    | some ps =>
      let r := detBatches det rest
      (ps ++ r.1, r.2)

/-- The while-True retry loop: predictions is initialised once OUTSIDE the
loop (line 128), so a failed pass leaves its partial extends in place; on
failure the batch size is halved, and a failure at batch size 1 is fatal
(modelled as none). -/
def faceDetLoop {I P : Type} (det : List I → Option (List P)) (imgs : List I) :
    ℕ → ℕ → List P → Option (List P)
  | 0, _, _ => none
  | fuel + 1, bs, acc =>
    let r := detBatches det (chunkList bs imgs)
    if r.2 then some (acc ++ r.1)
    else if bs = 1 then none
    else faceDetLoop det imgs fuel (bs / 2) (acc ++ r.1)

/-- The predictions list face_detect ends up zipping against sampled_images. -/
def faceDetectPredictions {I P : Type} (det : List I → Option (List P))
    (imgs : List I) (bs : ℕ) : Option (List P) :=
  faceDetLoop det imgs (bs + 1) bs []

theorem firstIdx_spec (p : ℕ → Bool) :
    ∀ fuel i, (∃ k, k < fuel ∧ p (i + k) = true) →
      p (firstIdx p fuel i) = true ∧ i ≤ firstIdx p fuel i ∧
        ∀ j, i ≤ j → j < firstIdx p fuel i → p j = false := by
  intro fuel
  induction fuel with
  | zero => intro i h; rcases h with ⟨k, hk, _⟩; omega
  | succ n ih =>
    intro i h
    by_cases hp : p i = true
    · refine ⟨by simp [firstIdx, hp], by simp [firstIdx, hp], ?_⟩
      intro j hij hj
      simp only [firstIdx, hp, if_true] at hj
      omega
    · have hp' : p i = false := by
        cases hpi : p i with
        | false => rfl
        | true => exact absurd hpi hp
      have hfx : firstIdx p (n + 1) i = firstIdx p n (i + 1) := by
        simp [firstIdx, hp']
      have hex : ∃ k, k < n ∧ p (i + 1 + k) = true := by
        rcases h with ⟨k, hk, hpk⟩
        cases k with
        | zero => simp at hpk; exact absurd hpk hp
        | succ m =>
          refine ⟨m, by omega, ?_⟩
          have harith : i + 1 + m = i + (m + 1) := by omega
          rw [harith]
          exact hpk
      rcases ih (i + 1) hex with ⟨h1, h2, h3⟩
      rw [hfx]
      refine ⟨h1, by omega, ?_⟩
      intro j hij hj
      rcases Nat.eq_or_lt_of_le hij with h | h
      · exact h ▸ hp'
      · exact h3 j h hj

theorem melStop_bound (num den T : ℕ) (hnum : 1 ≤ num) (hden : 1 ≤ den) :
    melStop num den T (num * (T + 1)) = true := by
  unfold melStop melStart melStepSize
  have hdiv : num * (T + 1) * 80 * den / num = (T + 1) * 80 * den := by
    have : num * (T + 1) * 80 * den = num * ((T + 1) * 80 * den) := by ring
    rw [this, Nat.mul_div_cancel_left _ (by omega)]
  rw [hdiv]
  have : T + 1 ≤ (T + 1) * 80 * den := by
    calc T + 1 = (T + 1) * 1 * 1 := by ring
    _ ≤ (T + 1) * 80 * den := by
        apply Nat.mul_le_mul
        · exact Nat.mul_le_mul_left _ (by omega)
        · exact hden
  simp only [decide_eq_true_eq]
  omega

/-- The stopping index is the least loop index satisfying the exit test. -/
theorem melStopIdx_least (num den T : ℕ) (hnum : 1 ≤ num) (hden : 1 ≤ den) :
    melStop num den T (melStopIdx num den T) = true ∧
      ∀ j, j < melStopIdx num den T → melStop num den T j = false := by
  have h := firstIdx_spec (melStop num den T) (num * (T + 1) + 1) 0
    ⟨num * (T + 1), by omega, by simpa using melStop_bound num den T hnum hden⟩
  exact ⟨h.1, fun j hj => h.2.2 j (by omega) hj⟩

/-- Before the break index, the exit test fails, i.e. the 16-column slice fits. -/
theorem melStart_add_le {num den T : ℕ} (hnum : 1 ≤ num) (hden : 1 ≤ den) {i : ℕ}
    (hi : i < melStopIdx num den T) : melStart num den i + melStepSize ≤ T := by
  have h := (melStopIdx_least num den T hnum hden).2 i hi
  unfold melStop at h
  simpa using h

theorem melChunks_length {α : Type} (melCols : List α) (num den : ℕ) :
    (melChunks melCols num den).length = melStopIdx num den melCols.length + 1 := by
  simp [melChunks]

/-- The i-th non-final chunk is the slice starting at melStart i. -/
theorem melChunks_getD_of_lt {α : Type} (melCols : List α) (num den : ℕ) {i : ℕ}
    (hi : i < melStopIdx num den melCols.length) :
    (melChunks melCols num den).getD i []
      = (melCols.drop (melStart num den i)).take melStepSize := by
  rw [melChunks, List.getD_append _ _ _ _ (by simpa using hi),
    List.getD_eq_getElem?_getD, List.getElem?_map, List.getElem?_range hi]
  rfl

theorem datagenTriples_length {F M D : Type} (frames : List F) (mels : List M)
    (dets : List D) (f0 : M × F × D) :
    (datagenTriples frames mels dets f0).length = mels.length := by
  simp [datagenTriples]

theorem chunkAux_sum_lengths {β : Type} (bs : ℕ) (hbs : 1 ≤ bs) :
    ∀ fuel (l : List β), l.length ≤ fuel →
      ((chunkAux bs fuel l).map List.length).sum = l.length := by
  intro fuel
  induction fuel with
  | zero =>
    intro l hl
    have : l = [] := List.eq_nil_of_length_eq_zero (by omega)
    subst this
    simp [chunkAux]
  | succ n ih =>
    intro l hl
    cases l with
    | nil => simp [chunkAux]
    | cons a as =>
      have hstep : chunkAux bs (n + 1) (a :: as)
          = (a :: as).take bs :: chunkAux bs n ((a :: as).drop bs) := rfl
      have hdrop : ((a :: as).drop bs).length ≤ n := by
        rw [List.length_drop]
        simp only [List.length_cons] at hl ⊢
        omega
      rw [hstep, List.map_cons, List.sum_cons, ih ((a :: as).drop bs) hdrop]
      rw [List.length_take, List.length_drop]
      simp only [List.length_cons] at hl ⊢
      omega

/-- Number of frames written equals the number of mel windows, whatever the
frame count (frames wrap around modulo len(frames) inside datagen). -/
theorem runOutputCount_eq {F M D : Type} (frames : List F) (mels : List M)
    (dets : List D) (f0 : M × F × D) (bs : ℕ) (hbs : 1 ≤ bs) :
    runOutputCount frames mels dets f0 bs = mels.length := by
  unfold runOutputCount chunkList
  rw [chunkAux_sum_lengths bs hbs _ _ (le_refl _)]
  exact datagenTriples_length frames mels dets f0

/-- C4 (amended).  For a mel matrix with at least window_width columns and
finite fps > 0: every emitted window has exactly window_width = 16 columns;
the i-th non-final window consists of columns start(i), ..., start(i)+15 with
start(i) = floor(i * 80 / fps); and the final window is exactly the last 16
columns of the matrix, even when the matrix length is not an exact multiple. -/
theorem aligner_window_shapes {α : Type} (melCols : List α) (num den : ℕ) (d : α)
    (hnum : 1 ≤ num) (hden : 1 ≤ den) (hT : melStepSize ≤ melCols.length) :
    (∀ c ∈ melChunks melCols num den, c.length = melStepSize) ∧
    (∀ i, i < melStopIdx num den melCols.length → ∀ j, j < melStepSize →
      ((melChunks melCols num den).getD i []).getD j d
        = melCols.getD (melStart num den i + j) d) ∧
    (melChunks melCols num den).getLastD []
      = melCols.drop (melCols.length - melStepSize) := by
  refine ⟨?_, ?_, ?_⟩
  · intro c hc
    rw [melChunks, List.mem_append] at hc
    rcases hc with hc | hc
    · rcases List.mem_map.mp hc with ⟨i, hi, rfl⟩
      rw [List.mem_range] at hi
      have hle := melStart_add_le hnum hden hi
      rw [List.length_take, List.length_drop]
      omega
    · rcases List.mem_singleton.mp hc with rfl
      rw [melFinalStart, if_pos hT, List.length_drop]
      omega
  · intro i hi j hj
    have hle := melStart_add_le hnum hden hi
    rw [melChunks_getD_of_lt melCols num den hi, List.getD_eq_getElem?_getD,
      List.getElem?_take]
    rw [if_pos hj, List.getElem?_drop, ← List.getD_eq_getElem?_getD]
  · rw [melChunks, List.getLastD_concat, melFinalStart, if_pos hT]

/-- Witness for the amended C4 at a concrete 20-column matrix and fps = 25. -/
theorem aligner_window_shapes_witness :
    (1 ≤ 25 ∧ 1 ≤ 1 ∧ melStepSize ≤ (List.range 20).length) ∧
    ((∀ c ∈ melChunks (List.range 20) 25 1, c.length = melStepSize) ∧
    (∀ i, i < melStopIdx 25 1 (List.range 20).length → ∀ j, j < melStepSize →
      ((melChunks (List.range 20) 25 1).getD i []).getD j 0
        = (List.range 20).getD (melStart 25 1 i + j) 0) ∧
    (melChunks (List.range 20) 25 1).getLastD []
      = (List.range 20).drop ((List.range 20).length - melStepSize)) :=
  ⟨⟨by decide, by decide, by decide⟩,
    aligner_window_shapes (List.range 20) 25 1 0 (by decide) (by decide) (by decide)⟩

/-- Counterexample to C4 as stated: on a 10-column mel matrix (fps 25) the
single emitted window is the numpy slice mel[:, -6:], which has 6 columns,
not window_width = 16. -/
theorem aligner_window_shapes_cex :
    ¬ (∀ c ∈ melChunks (List.range 10) 25 1, c.length = melStepSize) := by
  decide

/-- C10.  For every mel matrix (also shorter than 16 columns, also empty) and
every finite fps > 0 the chunking loop terminates at the least index whose
slice would overrun, emitting that many full windows plus one final window, so
at least one window overall; consequently, with a non-empty frame list, the
number of (mel, frame) pairs processed downstream is at least 1. -/
theorem aligner_terminates {α F D : Type} (melCols : List α) (num den : ℕ)
    (hnum : 1 ≤ num) (hden : 1 ≤ den) :
    (melCols.length <
      melStart num den (melStopIdx num den melCols.length) + melStepSize) ∧
    (∀ j, j < melStopIdx num den melCols.length →
      melStart num den j + melStepSize ≤ melCols.length) ∧
    (melChunks melCols num den).length = melStopIdx num den melCols.length + 1 ∧
    1 ≤ (melChunks melCols num den).length ∧
    (∀ (frames : List F) (dets : List D) (f0 : List α × F × D) (bs : ℕ), 1 ≤ bs →
      1 ≤ runOutputCount frames (melChunks melCols num den) dets f0 bs) := by
  have h := melStopIdx_least num den melCols.length hnum hden
  have hlen : (melChunks melCols num den).length = melStopIdx num den melCols.length + 1 :=
    melChunks_length melCols num den
  refine ⟨?_, ?_, hlen, by omega, ?_⟩
  · have h1 := h.1
    unfold melStop at h1
    simpa using h1
  · intro j hj
    exact melStart_add_le hnum hden hj
  · intro frames dets f0 bs hbs
    rw [runOutputCount_eq _ _ _ _ bs hbs]
    omega

/-- Witness for C10 on an empty mel matrix at fps 30: the loop still emits
exactly one (empty) window. -/
theorem aligner_terminates_witness :
    (1 ≤ 30 ∧ 1 ≤ (1 : ℕ)) ∧
    (((List.nil : List ℕ).length <
      melStart 30 1 (melStopIdx 30 1 (List.nil : List ℕ).length) + melStepSize) ∧
    (∀ j, j < melStopIdx 30 1 (List.nil : List ℕ).length →
      melStart 30 1 j + melStepSize ≤ (List.nil : List ℕ).length) ∧
    (melChunks (List.nil : List ℕ) 30 1).length = melStopIdx 30 1 (List.nil : List ℕ).length + 1 ∧
    1 ≤ (melChunks (List.nil : List ℕ) 30 1).length ∧
    (∀ (frames : List ℕ) (dets : List ℕ) (f0 : List ℕ × ℕ × ℕ) (bs : ℕ), 1 ≤ bs →
      1 ≤ runOutputCount frames (melChunks (List.nil : List ℕ) 30 1) dets f0 bs)) :=
  ⟨⟨by decide, by decide⟩, aligner_terminates (List.nil : List ℕ) 30 1 (by decide) (by decide)⟩

/-- C1 (amended).  For every valid run the number of output frames written
equals the number of audio windows (mel chunks).  It equals
min(len(source_frames), number of windows) when the source video has at least
as many frames as there are windows (the video is truncated, never padded);
when the audio implies more frames than the source has, source frames are
reused cyclically and the output count exceeds the source frame count. -/
theorem run_output_vs_audio {F D α : Type} (fullFrames : List F) (melCols : List α)
    (num den : ℕ) (dets : List D) (f0 : List α × F × D) (bs : ℕ)
    (hne : fullFrames ≠ []) (hbs : 1 ≤ bs) (hnum : 1 ≤ num) (hden : 1 ≤ den) :
    runOutputCount (fullFrames.take (melChunks melCols num den).length)
        (melChunks melCols num den) dets f0 bs
      = (melChunks melCols num den).length ∧
    ((melChunks melCols num den).length ≤ fullFrames.length →
      runOutputCount (fullFrames.take (melChunks melCols num den).length)
          (melChunks melCols num den) dets f0 bs
        = min fullFrames.length (melChunks melCols num den).length) := by
  constructor
  · exact runOutputCount_eq _ _ _ _ bs hbs
  · intro hle
    rw [runOutputCount_eq _ _ _ _ bs hbs]
    omega

/-- Witness for the amended C1: 3 source frames, a 16-column mel matrix at
fps 80 (2 windows): 2 output frames = min(3, 2). -/
theorem run_output_vs_audio_witness :
    (([0, 1, 2] : List ℕ) ≠ [] ∧ 1 ≤ 32 ∧ 1 ≤ 80 ∧ 1 ≤ (1 : ℕ) ∧
      (melChunks (List.range 16) 80 1).length ≤ ([0, 1, 2] : List ℕ).length) ∧
    runOutputCount (([0, 1, 2] : List ℕ).take (melChunks (List.range 16) 80 1).length)
        (melChunks (List.range 16) 80 1) ([9, 9, 9] : List ℕ) ([], 0, 0) 32
      = min ([0, 1, 2] : List ℕ).length (melChunks (List.range 16) 80 1).length :=
  ⟨⟨by decide, by decide, by decide, by decide, by decide⟩,
    (run_output_vs_audio ([0, 1, 2] : List ℕ) (List.range 16) 80 1 ([9, 9, 9] : List ℕ)
      ([], 0, 0) 32 (by decide) (by decide) (by decide) (by decide)).2 (by decide)⟩

/-- Counterexample to C1 as stated: 1 source frame, a 16-column mel matrix at
fps 80 gives 2 audio windows; the run writes 2 output frames (the single
source frame is reused), but min(len(source_frames), audio frames) = 1. -/
theorem run_output_vs_audio_cex :
    runOutputCount (([5] : List ℕ).take (melChunks (List.range 16) 80 1).length)
        (melChunks (List.range 16) 80 1) ([9] : List ℕ) ([], 0, 0) 32 = 2 ∧
    min ([5] : List ℕ).length (melChunks (List.range 16) 80 1).length = 1 ∧
    (2 : ℕ) ≠ 1 := by
  refine ⟨by decide, by decide, by decide⟩

/-- Counterexample to C9 as stated: at fps 25 a 64-column mel matrix yields 17
windows (the multiplier is 80/25 = 3.2), not 4. -/
theorem scenario_windows_cex :
    (melChunks (List.range 64) 25 1).length ≠ 4 := by
  decide

/-- C9 (amended).  For a 10-frame video the tracker samples all 10 frames;
the aligner on a 64-column mel matrix with window_width 16 at fps 25 yields
exactly 17 windows, the non-final ones starting at columns
floor(3.2 i) = 0, 3, 6, 9, 12, 16, 19, 22, 25, 28, 32, 35, 38, 41, 44, 48 and
the final one clamped to the last 16 columns (start 48); every window has
exactly 16 columns. -/
theorem scenario_ten_frames :
    sampleIndices 10 = List.range 10 ∧
    (melChunks (List.range 64) 25 1).length = 17 ∧
    (melChunks (List.range 64) 25 1).map (fun c => c.headD 99)
      = [0, 3, 6, 9, 12, 16, 19, 22, 25, 28, 32, 35, 38, 41, 44, 48, 48] ∧
    (∀ c ∈ melChunks (List.range 64) 25 1, c.length = melStepSize) := by
  refine ⟨by decide, by decide, by decide, by decide⟩

/-! Tracker: interpolation endpoint exactness (C2) -/

theorem updFun_apply {β : Type} (f : ℕ → β) (j : ℕ) (v : β) (x : ℕ) :
    updFun f j v x = if x = j then v else f x := rfl

theorem foldlUpd_apply {β : Type} (g : ℕ → β) (a : ℕ) (val : ℕ → β) :
    ∀ (m : ℕ) (x : ℕ),
      ((List.range m).foldl (fun f k => updFun f (a + k) (val k)) g) x
        = if a ≤ x ∧ x < a + m then val (x - a) else g x := by
  intro m
  induction m with
  | zero =>
    intro x
    rw [if_neg (by omega)]
    simp
  | succ n ih =>
    intro x
    rw [List.range_succ, List.foldl_append, List.foldl_cons, List.foldl_nil]
    show (updFun ((List.range n).foldl (fun f k => updFun f (a + k) (val k)) g)
      (a + n) (val n)) x = _
    rw [updFun_apply]
    by_cases hx : x = a + n
    · rw [if_pos hx, if_pos (by omega)]
      congr 1
      omega
    · rw [if_neg hx, ih x]
      by_cases h1 : a ≤ x ∧ x < a + n
      · rw [if_pos h1, if_pos (by omega)]
      · rw [if_neg h1, if_neg (by omega)]

theorem interpOne_apply (a b : ℕ) (Ba Bb : Box) (g : ℕ → Box) (x : ℕ) :
    interpOne a b Ba Bb g x
      = if a ≤ x ∧ x ≤ b then
          lerpBox (((x : ℚ) - (a : ℚ)) / max 1 ((b : ℚ) - (a : ℚ))) Ba Bb
        else g x := by
  unfold interpOne
  rw [foldlUpd_apply]
  by_cases h : a ≤ x ∧ x < a + (b + 1 - a)
  · rw [if_pos h, if_pos (by omega)]
    congr 2
    rw [Nat.cast_sub h.1]
  · rw [if_neg h, if_neg (by omega)]

theorem lerpBox_zero (a b : Box) : lerpBox 0 a b = a := by
  unfold lerpBox
  rw [sub_zero, one_smul, zero_smul, add_zero]

theorem lerpBox_one (a b : Box) : lerpBox 1 a b = b := by
  unfold lerpBox
  rw [sub_self, zero_smul, one_smul, zero_add]

theorem interpOne_at_left {a b : ℕ} (hab : a < b) (Ba Bb : Box) (g : ℕ → Box) :
    interpOne a b Ba Bb g a = Ba := by
  rw [interpOne_apply, if_pos ⟨le_refl a, le_of_lt hab⟩, sub_self, zero_div, lerpBox_zero]

theorem interpOne_at_right {a b : ℕ} (hab : a < b) (Ba Bb : Box) (g : ℕ → Box) :
    interpOne a b Ba Bb g b = Bb := by
  rw [interpOne_apply, if_pos ⟨le_of_lt hab, le_refl b⟩]
  have h1 : (1 : ℚ) ≤ (b : ℚ) - (a : ℚ) := by
    have : (a : ℚ) + 1 ≤ (b : ℚ) := by exact_mod_cast hab
    linarith
  rw [max_eq_right h1, div_self (by linarith), lerpBox_one]

theorem interpOne_below {a b x : ℕ} (hx : x < a) (Ba Bb : Box) (g : ℕ → Box) :
    interpOne a b Ba Bb g x = g x := by
  rw [interpOne_apply, if_neg (by omega)]

/-- After the interpolation pass over the consecutive pairs of a strictly
increasing sample list, positions below the head are untouched, the head holds
its own box (when there is at least one pair), and every later sample holds
its own box. -/
theorem interpAll_consec :
    ∀ (s : List ℕ) (bl : List Box) (a : ℕ) (Ba : Box) (g : ℕ → Box),
      (a :: s).Chain' (· < ·) → bl.length = s.length →
      ((∀ x, x < a → interpAll (consecPairs (a :: s) (Ba :: bl)) g x = g x) ∧
       (s ≠ [] → interpAll (consecPairs (a :: s) (Ba :: bl)) g a = Ba) ∧
       (∀ k, k < s.length →
         interpAll (consecPairs (a :: s) (Ba :: bl)) g (s.getD k 0) = bl.getD k box0)) := by
  intro s
  induction s with
  | nil =>
    intro bl a Ba g _ hlen
    have hbl : bl = [] := List.eq_nil_of_length_eq_zero hlen
    subst hbl
    refine ⟨fun x _ => rfl, fun h => absurd rfl h, fun k hk => by simp at hk⟩
  | cons b s2 ih =>
    intro bl a Ba g hchain hlen
    cases bl with
    | nil => simp at hlen
    | cons Bb bl2 =>
      have hab : a < b := (List.chain'_cons.mp hchain).1
      have hchain2 : (b :: s2).Chain' (· < ·) := (List.chain'_cons.mp hchain).2
      have hlen2 : bl2.length = s2.length := by simpa using hlen
      have hpairs : consecPairs (a :: b :: s2) (Ba :: Bb :: bl2)
          = (a, b, Ba, Bb) :: consecPairs (b :: s2) (Bb :: bl2) := rfl
      have hfold : interpAll (consecPairs (a :: b :: s2) (Ba :: Bb :: bl2)) g
          = interpAll (consecPairs (b :: s2) (Bb :: bl2)) (interpOne a b Ba Bb g) := by
        rw [hpairs]; rfl
      have IH := ih bl2 b Bb (interpOne a b Ba Bb g) hchain2 hlen2
      refine ⟨?_, ?_, ?_⟩
      · intro x hx
        rw [hfold, IH.1 x (by omega), interpOne_below hx]
      · intro _
        rw [hfold, IH.1 a hab, interpOne_at_left hab]
      · intro k hk
        cases k with
        | zero =>
          show interpAll _ g b = Bb
          cases s2 with
          | nil =>
            rw [hfold]
            show interpOne a b Ba Bb g b = Bb
            exact interpOne_at_right hab Ba Bb g
          | cons c s3 =>
            rw [hfold]
            exact IH.2.1 (by simp)
        | succ k2 =>
          have hk2 : k2 < s2.length := by simpa using hk
          show interpAll _ g (s2.getD k2 0) = bl2.getD k2 box0
          rw [hfold]
          exact IH.2.2 k2 hk2

theorem getLastD_eq_getD {β : Type} (l : List β) (d : β) (h : l ≠ []) :
    l.getLastD d = l.getD (l.length - 1) d := by
  cases l with
  | nil => exact absurd rfl h
  | cons a as =>
    rw [List.getLastD_eq_getLast?, List.getLast?_eq_getElem?, List.getD_eq_getElem?_getD]

/-- C2.  After the interpolation pass (and the final write of the box of the
last sample), every sample index holds exactly its padded-and-clamped box:
in particular for every consecutive pair a < b the box at a is Ba and the box
at b is Bb, and the final sample is exact because it is written last. -/
theorem tracker_endpoint_exact (samples : List ℕ) (sboxes : List Box)
    (hchain : samples.Chain' (· < ·)) (hlen : sboxes.length = samples.length)
    (hne : samples ≠ []) :
    ∀ k, k < samples.length →
      allBoxesFun samples sboxes (samples.getD k 0) = sboxes.getD k box0 := by
  intro k hk
  have hpair := List.pairwise_iff_get.mp (List.chain'_iff_pairwise.mp hchain)
  unfold allBoxesFun updFun
  by_cases hklast : k = samples.length - 1
  · subst hklast
    rw [if_pos (by rw [getLastD_eq_getD samples 0 hne]),
      getLastD_eq_getD sboxes box0 (by intro hc; subst hc; simp at hlen; omega), hlen]
  · have hklt : k < samples.length - 1 := by omega
    have hne' : samples.getD k 0 ≠ samples.getLastD 0 := by
      rw [getLastD_eq_getD samples 0 hne]
      have h1 : samples.getD k 0 = samples.get ⟨k, hk⟩ := by
        rw [List.getD_eq_getElem?_getD, List.getElem?_eq_getElem hk]; rfl
      have h2 : samples.getD (samples.length - 1) 0
          = samples.get ⟨samples.length - 1, by omega⟩ := by
        rw [List.getD_eq_getElem?_getD, List.getElem?_eq_getElem (by omega)]; rfl
      rw [h1, h2]
      exact ne_of_lt (hpair ⟨k, hk⟩ ⟨samples.length - 1, by omega⟩ (by simp; omega))
    rw [if_neg hne']
    cases samples with
    | nil => exact absurd rfl hne
    | cons a s =>
      cases sboxes with
      | nil => simp at hlen
      | cons Ba bl =>
        have hlen2 : bl.length = s.length := by simpa using hlen
        have H := interpAll_consec s bl a Ba (fun _ => box0) hchain hlen2
        cases k with
        | zero =>
          show interpAll _ _ a = Ba
          refine H.2.1 ?_
          intro hc
          subst hc
          simp at hklt
        | succ k2 =>
          show interpAll _ _ (s.getD k2 0) = bl.getD k2 box0
          exact H.2.2 k2 (by simp at hk; omega)

/-- Witness for C2: samples [0, 2, 5] with three concrete boxes; the box at
sample position 1 (frame 2) equals the second sampled box exactly. -/
theorem tracker_endpoint_exact_witness :
    (([0, 2, 5] : List ℕ).Chain' (· < ·) ∧
      ([![1, 2, 3, 4], ![5, 6, 7, 8], ![9, 10, 11, 12]] : List Box).length
        = ([0, 2, 5] : List ℕ).length ∧ ([0, 2, 5] : List ℕ) ≠ []) ∧
    allBoxesFun [0, 2, 5] [![1, 2, 3, 4], ![5, 6, 7, 8], ![9, 10, 11, 12]]
        (([0, 2, 5] : List ℕ).getD 1 0)
      = ([![1, 2, 3, 4], ![5, 6, 7, 8], ![9, 10, 11, 12]] : List Box).getD 1 box0 :=
  ⟨⟨by simp [List.chain'_cons], by decide, by decide⟩,
    tracker_endpoint_exact [0, 2, 5] [![1, 2, 3, 4], ![5, 6, 7, 8], ![9, 10, 11, 12]]
      (by simp [List.chain'_cons]) (by decide) (by decide) 1 (by decide)⟩

/-! Tracker: boxes stay inside the frame (C3) -/

theorem box0_inFrame {W H : ℚ} (hW : 0 ≤ W) (hH : 0 ≤ H) : boxInFrame W H box0 := by
  intro i
  refine ⟨le_refl 0, ?_⟩
  unfold box0 coordBound
  split <;> assumption

theorem clampBox_inFrame {W H pady1 pady2 padx1 padx2 : ℚ}
    (hW : 0 ≤ W) (hH : 0 ≤ H) (hp1 : 0 ≤ pady1) (hp2 : 0 ≤ pady2)
    (hp3 : 0 ≤ padx1) (hp4 : 0 ≤ padx2) {r : Box} (hr : boxInFrame W H r) :
    boxInFrame W H (clampBox W H pady1 pady2 padx1 padx2 r) := by
  have h0a : (0 : ℚ) ≤ r 0 := (hr 0).1
  have h0b : r 0 ≤ W := (hr 0).2
  have h1a : (0 : ℚ) ≤ r 1 := (hr 1).1
  have h1b : r 1 ≤ H := (hr 1).2
  have h2a : (0 : ℚ) ≤ r 2 := (hr 2).1
  have h2b : r 2 ≤ W := (hr 2).2
  have h3a : (0 : ℚ) ≤ r 3 := (hr 3).1
  have h3b : r 3 ≤ H := (hr 3).2
  intro i
  fin_cases i
  · show (0 : ℚ) ≤ max 0 (r 0 - padx1) ∧ max 0 (r 0 - padx1) ≤ W
    exact ⟨le_max_left 0 _, max_le hW (by linarith)⟩
  · show (0 : ℚ) ≤ max 0 (r 1 - pady1) ∧ max 0 (r 1 - pady1) ≤ H
    exact ⟨le_max_left 0 _, max_le hH (by linarith)⟩
  · show (0 : ℚ) ≤ min W (r 2 + padx2) ∧ min W (r 2 + padx2) ≤ W
    exact ⟨le_min hW (by linarith), min_le_left W _⟩
  · show (0 : ℚ) ≤ min H (r 3 + pady2) ∧ min H (r 3 + pady2) ≤ H
    exact ⟨le_min hH (by linarith), min_le_left H _⟩

theorem lerpBox_inFrame {W H : ℚ} {t : ℚ} (ht0 : 0 ≤ t) (ht1 : t ≤ 1)
    {Ba Bb : Box} (ha : boxInFrame W H Ba) (hb : boxInFrame W H Bb) :
    boxInFrame W H (lerpBox t Ba Bb) := by
  intro i
  have hai := ha i
  have hbi := hb i
  have happ : lerpBox t Ba Bb i = (1 - t) * Ba i + t * Bb i := by
    simp [lerpBox, smul_eq_mul]
  rw [happ]
  constructor
  · have := mul_nonneg (by linarith : (0:ℚ) ≤ 1 - t) hai.1
    have := mul_nonneg ht0 hbi.1
    linarith
  · nlinarith [mul_nonneg (by linarith : (0:ℚ) ≤ 1 - t) (by linarith : 0 ≤ coordBound W H i - Ba i),
      mul_nonneg ht0 (by linarith : 0 ≤ coordBound W H i - Bb i)]

theorem interpOne_inFrame {W H : ℚ} {a b : ℕ} {Ba Bb : Box}
    (ha : boxInFrame W H Ba) (hb : boxInFrame W H Bb) {g : ℕ → Box}
    (hg : ∀ x, boxInFrame W H (g x)) :
    ∀ x, boxInFrame W H (interpOne a b Ba Bb g x) := by
  intro x
  rw [interpOne_apply]
  by_cases h : a ≤ x ∧ x ≤ b
  · rw [if_pos h]
    have hden : (1 : ℚ) ≤ max 1 ((b : ℚ) - (a : ℚ)) := le_max_left 1 _
    have hnum0 : (0 : ℚ) ≤ (x : ℚ) - (a : ℚ) := by
      have : (a : ℚ) ≤ (x : ℚ) := by exact_mod_cast h.1
      linarith
    have hnum1 : (x : ℚ) - (a : ℚ) ≤ max 1 ((b : ℚ) - (a : ℚ)) := by
      have hxb : (x : ℚ) ≤ (b : ℚ) := by exact_mod_cast h.2
      have : (x : ℚ) - (a : ℚ) ≤ (b : ℚ) - (a : ℚ) := by linarith
      exact le_trans this (le_max_right 1 _)
    exact lerpBox_inFrame (div_nonneg hnum0 (by linarith))
      ((div_le_one (by linarith)).mpr hnum1) ha hb
  · rw [if_neg h]
    exact hg x

theorem consecPairs_mem :
    ∀ (s : List ℕ) (bl : List Box) (q : ℕ × ℕ × Box × Box),
      q ∈ consecPairs s bl → q.2.2.1 ∈ bl ∧ q.2.2.2 ∈ bl := by
  intro s
  induction s with
  | nil =>
    intro bl q h
    simp [consecPairs] at h
  | cons a s ih =>
    intro bl q h
    cases s with
    | nil =>
      have : consecPairs [a] bl = [] := by
        cases bl with
        | nil => rfl
        | cons Ba bl1 => rfl
      rw [this] at h
      simp at h
    | cons b s2 =>
      cases bl with
      | nil => simp [consecPairs] at h
      | cons Ba bl1 =>
        cases bl1 with
        | nil => simp [consecPairs] at h
        | cons Bb bl2 =>
          have hcp : consecPairs (a :: b :: s2) (Ba :: Bb :: bl2)
              = (a, b, Ba, Bb) :: consecPairs (b :: s2) (Bb :: bl2) := rfl
          rw [hcp] at h
          rcases List.mem_cons.mp h with rfl | h2
          · exact ⟨by simp, by simp⟩
          · have hm := ih (Bb :: bl2) q h2
            exact ⟨List.mem_cons_of_mem _ hm.1, List.mem_cons_of_mem _ hm.2⟩

theorem interpAll_inFrame {W H : ℚ} :
    ∀ (ps : List (ℕ × ℕ × Box × Box)),
      (∀ q ∈ ps, boxInFrame W H q.2.2.1 ∧ boxInFrame W H q.2.2.2) →
      ∀ (g : ℕ → Box), (∀ x, boxInFrame W H (g x)) →
      ∀ x, boxInFrame W H (interpAll ps g x) := by
  intro ps
  induction ps with
  | nil => intro _ g hg x; exact hg x
  | cons q ps ih =>
    intro hps g hg x
    have hq := hps q (List.mem_cons_self q ps)
    have hfold : interpAll (q :: ps) g = interpAll ps (interpOne q.1 q.2.1 q.2.2.1 q.2.2.2 g) :=
      rfl
    rw [hfold]
    exact ih (fun p hp => hps p (List.mem_cons_of_mem q hp))
      _ (interpOne_inFrame hq.1 hq.2 hg) x

theorem getLastD_inFrame {W H : ℚ} (hW : 0 ≤ W) (hH : 0 ≤ H) (l : List Box)
    (hl : ∀ b ∈ l, boxInFrame W H b) : boxInFrame W H (l.getLastD box0) := by
  cases l with
  | nil => exact box0_inFrame hW hH
  | cons a as =>
    rw [List.getLastD_eq_getLast?, List.getLast?_eq_getLast (a :: as) (by simp)]
    exact hl _ (List.getLast_mem (by simp))

theorem allBoxesFun_inFrame {W H : ℚ} (hW : 0 ≤ W) (hH : 0 ≤ H)
    (samples : List ℕ) (sboxes : List Box) (hsb : ∀ b ∈ sboxes, boxInFrame W H b) :
    ∀ x, boxInFrame W H (allBoxesFun samples sboxes x) := by
  intro x
  unfold allBoxesFun
  rw [updFun_apply]
  by_cases hx : x = samples.getLastD 0
  · rw [if_pos hx]
    exact getLastD_inFrame hW hH sboxes hsb
  · rw [if_neg hx]
    refine interpAll_inFrame (consecPairs samples sboxes) ?_ _
      (fun _ => box0_inFrame hW hH) x
    intro q hq
    have hm := consecPairs_mem samples sboxes q hq
    exact ⟨hsb _ hm.1, hsb _ hm.2⟩

theorem foldl_boxAdd_bounds {W H : ℚ} :
    ∀ (l : List Box), (∀ b ∈ l, boxInFrame W H b) →
      ∀ (init : Box) (i : Fin 4),
        init i ≤ (l.foldl (· + ·) init) i ∧
        (l.foldl (· + ·) init) i ≤ init i + (l.length : ℚ) * coordBound W H i := by
  intro l
  induction l with
  | nil => intro _ init i; simp
  | cons b bs ih =>
    intro hl init i
    have hb := hl b (List.mem_cons_self b bs)
    have hrec := ih (fun c hc => hl c (List.mem_cons_of_mem b hc)) (init + b) i
    have happ : (init + b) i = init i + b i := rfl
    rw [List.foldl_cons]
    constructor
    · have := (hb i).1
      have := hrec.1
      rw [happ] at this
      linarith
    · have h1 := hrec.2
      rw [happ] at h1
      have h2 := (hb i).2
      have hlen : ((bs.length : ℚ) + 1) = ((b :: bs).length : ℚ) := by
        rw [List.length_cons]
        push_cast
        ring
      calc (List.foldl (· + ·) (init + b) bs) i
          ≤ init i + b i + (bs.length : ℚ) * coordBound W H i := h1
        _ ≤ init i + coordBound W H i + (bs.length : ℚ) * coordBound W H i := by linarith
        _ = init i + ((bs.length : ℚ) + 1) * coordBound W H i := by ring
        _ = init i + ((b :: bs).length : ℚ) * coordBound W H i := by rw [hlen]

theorem meanBoxes_inFrame {W H : ℚ} (hW : 0 ≤ W) (hH : 0 ≤ H) (l : List Box)
    (hl : ∀ b ∈ l, boxInFrame W H b) : boxInFrame W H (meanBoxes l) := by
  cases hlen : l.length with
  | zero =>
    have : l = [] := List.eq_nil_of_length_eq_zero hlen
    subst this
    intro i
    have : meanBoxes ([] : List Box) i = 0 := by
      simp [meanBoxes, boxListSum, box0, smul_eq_mul]
    rw [this]
    refine ⟨le_refl 0, ?_⟩
    unfold coordBound
    split <;> assumption
  | succ n =>
    intro i
    have hsum := foldl_boxAdd_bounds l hl box0 i
    have hb0 : box0 i = 0 := rfl
    rw [hb0] at hsum
    have happ : meanBoxes l i = ((l.length : ℚ))⁻¹ * (l.foldl (· + ·) box0) i := by
      simp [meanBoxes, boxListSum, smul_eq_mul]
    have hlpos : (0 : ℚ) < (l.length : ℚ) := by
      rw [hlen]
      exact_mod_cast Nat.succ_pos n
    have hinv : (0 : ℚ) ≤ ((l.length : ℚ))⁻¹ := le_of_lt (inv_pos.mpr hlpos)
    rw [happ]
    constructor
    · have := hsum.1
      exact mul_nonneg hinv (by linarith)
    · have h1 := hsum.2
      have h2 : ((l.length : ℚ))⁻¹ * (l.foldl (· + ·) box0) i
          ≤ ((l.length : ℚ))⁻¹ * ((l.length : ℚ) * coordBound W H i) := by
        apply mul_le_mul_of_nonneg_left _ hinv
        linarith
      calc ((l.length : ℚ))⁻¹ * (l.foldl (· + ·) box0) i
          ≤ ((l.length : ℚ))⁻¹ * ((l.length : ℚ) * coordBound W H i) := h2
        _ = coordBound W H i := by
          rw [← mul_assoc, inv_mul_cancel₀ (ne_of_gt hlpos), one_mul]

theorem windowMean_inFrame {W H : ℚ} (hW : 0 ≤ W) (hH : 0 ≤ H) (T : ℕ)
    (cur : List Box) (hcur : ∀ b ∈ cur, boxInFrame W H b) (i : ℕ) :
    boxInFrame W H (windowMean T cur i) := by
  unfold windowMean
  split
  · exact meanBoxes_inFrame hW hH _ (fun b hb => hcur b (List.mem_of_mem_drop hb))
  · exact meanBoxes_inFrame hW hH _
      (fun b hb => hcur b (List.mem_of_mem_drop (List.mem_of_mem_take hb)))

theorem smoothGo_inFrame {W H : ℚ} (hW : 0 ≤ W) (hH : 0 ≤ H) (T : ℕ) :
    ∀ (fuel i : ℕ) (cur : List Box), (∀ b ∈ cur, boxInFrame W H b) →
      ∀ b ∈ smoothGo T fuel i cur, boxInFrame W H b := by
  intro fuel
  induction fuel with
  | zero => intro i cur hcur b hb; exact hcur b hb
  | succ n ih =>
    intro i cur hcur b hb
    have hstep : smoothGo T (n + 1) i cur = smoothGo T n (i + 1) (cur.set i (windowMean T cur i)) :=
      rfl
    rw [hstep] at hb
    refine ih (i + 1) _ ?_ b hb
    intro c hc
    rcases List.mem_or_eq_of_mem_set hc with hc2 | rfl
    · exact hcur c hc2
    · exact windowMean_inFrame hW hH T cur hcur i

/-- C3 (amended).  For every frame count, every NONNEGATIVE pad configuration
(pads whose subtraction or addition would push a coordinate outside the frame
are clamped back), every detector output lying within the frame, and smoothing
on or off, every box the tracker outputs lies within [0, W] x [0, H]. -/
theorem tracker_boxes_in_frame (W H pady1 pady2 padx1 padx2 : ℚ)
    (hW : 0 ≤ W) (hH : 0 ≤ H) (hp1 : 0 ≤ pady1) (hp2 : 0 ≤ pady2)
    (hp3 : 0 ≤ padx1) (hp4 : 0 ≤ padx2) (rects : List Box)
    (hr : ∀ r ∈ rects, boxInFrame W H r) (n : ℕ) (nosmooth : Bool) :
    ∀ b ∈ faceDetectBoxes W H pady1 pady2 padx1 padx2 rects n nosmooth,
      boxInFrame W H b := by
  intro b hb
  unfold faceDetectBoxes at hb
  have hsb : ∀ c ∈ rects.map (clampBox W H pady1 pady2 padx1 padx2), boxInFrame W H c := by
    intro c hc
    rcases List.mem_map.mp hc with ⟨r, hrm, rfl⟩
    exact clampBox_inFrame hW hH hp1 hp2 hp3 hp4 (hr r hrm)
  have htracked : ∀ c ∈ trackedBoxList n (sampleIndices n)
      (rects.map (clampBox W H pady1 pady2 padx1 padx2)), boxInFrame W H c := by
    intro c hc
    rcases List.mem_map.mp hc with ⟨x, _, rfl⟩
    exact allBoxesFun_inFrame hW hH _ _ hsb x
  by_cases hns : nosmooth
  · rw [if_pos hns] at hb
    exact htracked b hb
  · rw [if_neg hns] at hb
    exact smoothGo_inFrame hW hH 5 _ 0 _ htracked b hb

/-- Witness for the amended C3: two frames of a 100x100 video, default pads
(0, 10, 0, 0), two in-frame detector rectangles, smoothing on. -/
theorem tracker_boxes_in_frame_witness :
    ((0 : ℚ) ≤ 100 ∧ (0 : ℚ) ≤ 10 ∧
      (∀ r ∈ ([![30, 30, 60, 60], ![32, 32, 62, 62]] : List Box), boxInFrame 100 100 r)) ∧
    (∀ b ∈ faceDetectBoxes 100 100 0 10 0 0 [![30, 30, 60, 60], ![32, 32, 62, 62]] 2 false,
      boxInFrame 100 100 b) :=
  ⟨⟨by norm_num, by norm_num, by with_unfolding_all decide⟩,
    tracker_boxes_in_frame 100 100 0 10 0 0 (by norm_num) (by norm_num) (by norm_num)
      (by norm_num) (by norm_num) (by norm_num) [![30, 30, 60, 60], ![32, 32, 62, 62]]
      (by with_unfolding_all decide) 2 false⟩

/-- Counterexample to C3 as stated (all pad configurations): with pads
(0, -50, 0, 0) on a 100x100 frame and the in-frame detector rectangle
(10, 10, 20, 20), the output box of the tracker is (10, 10, 20, -30): its y2
coordinate is negative, outside [0, height). -/
theorem tracker_boxes_in_frame_cex :
    ¬ boxInFrame 100 100
      ((faceDetectBoxes 100 100 0 (-50) 0 0 [![10, 10, 20, 20]] 1 false).getD 0 box0) := by
  with_unfolding_all decide

/-! Tracker: what the smoothing pass actually computes (C5) -/

theorem smoothGo_length (T : ℕ) :
    ∀ (fuel i : ℕ) (cur : List Box), (smoothGo T fuel i cur).length = cur.length := by
  intro fuel
  induction fuel with
  | zero => intro i cur; rfl
  | succ n ih =>
    intro i cur
    have hstep : smoothGo T (n + 1) i cur
        = smoothGo T n (i + 1) (cur.set i (windowMean T cur i)) := rfl
    rw [hstep, ih, List.length_set]

theorem smoothGo_getElem?_lt (T : ℕ) :
    ∀ (fuel i : ℕ) (cur : List Box) (j : ℕ), j < i →
      (smoothGo T fuel i cur)[j]? = cur[j]? := by
  intro fuel
  induction fuel with
  | zero => intro i cur j _; rfl
  | succ n ih =>
    intro i cur j hj
    have hstep : smoothGo T (n + 1) i cur
        = smoothGo T n (i + 1) (cur.set i (windowMean T cur i)) := rfl
    rw [hstep, ih (i + 1) _ j (by omega), List.getElem?_set_ne (by omega)]

theorem smoothGo_getElem?_ge (T : ℕ) :
    ∀ (fuel i : ℕ) (cur : List Box) (j : ℕ), i + fuel ≤ j →
      (smoothGo T fuel i cur)[j]? = cur[j]? := by
  intro fuel
  induction fuel with
  | zero => intro i cur j _; rfl
  | succ n ih =>
    intro i cur j hj
    have hstep : smoothGo T (n + 1) i cur
        = smoothGo T n (i + 1) (cur.set i (windowMean T cur i)) := rfl
    rw [hstep, ih (i + 1) _ j (by omega), List.getElem?_set_ne (by omega)]

theorem smoothGo_split (T : ℕ) :
    ∀ (a b i : ℕ) (cur : List Box),
      smoothGo T (a + b) i cur = smoothGo T b (i + a) (smoothGo T a i cur) := by
  intro a
  induction a with
  | zero =>
    intro b i cur
    rw [Nat.zero_add, Nat.add_zero]
    rfl
  | succ n ih =>
    intro b i cur
    have h1 : n + 1 + b = (n + b) + 1 := by omega
    rw [h1]
    have hstep : smoothGo T ((n + b) + 1) i cur
        = smoothGo T (n + b) (i + 1) (cur.set i (windowMean T cur i)) := rfl
    have hstep2 : smoothGo T (n + 1) i cur
        = smoothGo T n (i + 1) (cur.set i (windowMean T cur i)) := rfl
    rw [hstep, ih b (i + 1) _, hstep2]
    congr 1
    omega

/-- The box the smoothing loop leaves at position j is the window mean taken
over the state just before step j (first j entries already smoothed). -/
theorem getSmoothened_getElem? (boxes : List Box) (T : ℕ) {j : ℕ}
    (hj : j < boxes.length) :
    (getSmoothenedBoxes boxes T)[j]?
      = some (windowMean T (smoothMidState T boxes j) j) := by
  have hn : boxes.length = j + (boxes.length - j) := by omega
  have hmidlen : (smoothMidState T boxes j).length = boxes.length :=
    smoothGo_length T j 0 boxes
  have hsplit : getSmoothenedBoxes boxes T
      = smoothGo T (boxes.length - j) j (smoothMidState T boxes j) := by
    have h := smoothGo_split T j (boxes.length - j) 0 boxes
    rw [Nat.zero_add] at h
    rw [← hn] at h
    exact h
  have hfuel : boxes.length - j = (boxes.length - j - 1) + 1 := by omega
  rw [hsplit, hfuel]
  have hstep : smoothGo T ((boxes.length - j - 1) + 1) j (smoothMidState T boxes j)
      = smoothGo T (boxes.length - j - 1) (j + 1)
          ((smoothMidState T boxes j).set j
            (windowMean T (smoothMidState T boxes j) j)) := rfl
  rw [hstep, smoothGo_getElem?_lt T _ (j + 1) _ j (by omega),
    List.getElem?_set_self (by rw [hmidlen]; omega)]

/-- Entries of the pre-step-j state: already-final below j, original at or
above j. -/
theorem smoothMidState_getElem? (boxes : List Box) (T : ℕ) {j : ℕ}
    (hj : j ≤ boxes.length) (k : ℕ) :
    (smoothMidState T boxes j)[k]?
      = if k < j then (getSmoothenedBoxes boxes T)[k]? else boxes[k]? := by
  by_cases hk : k < j
  · rw [if_pos hk]
    have hsplit : getSmoothenedBoxes boxes T
        = smoothGo T (boxes.length - j) j (smoothMidState T boxes j) := by
      have h := smoothGo_split T j (boxes.length - j) 0 boxes
      rw [Nat.zero_add] at h
      have hn : j + (boxes.length - j) = boxes.length := by omega
      rw [hn] at h
      exact h
    rw [hsplit, smoothGo_getElem?_lt T _ j _ k hk]
  · rw [if_neg hk]
    exact smoothGo_getElem?_ge T j 0 boxes k (by omega)

/-- C5 (amended).  The smoothing pass updates the box array sequentially in
place.  For every frame j with j + T <= n the result at j is the mean of the
window of T INTERPOLATED boxes starting at j, exactly as the claim states;
but for the tail frames (j + T > n) the window is the tail slice of the
partially updated array (its first j entries are already smoothed), not of
the original interpolated boxes. -/
theorem smoothing_semantics (boxes : List Box) (T : ℕ) :
    ∀ j, j < boxes.length →
      ((j + T ≤ boxes.length →
        (getSmoothenedBoxes boxes T).getD j box0 = meanBoxes ((boxes.drop j).take T)) ∧
       (boxes.length < j + T →
        (getSmoothenedBoxes boxes T).getD j box0
          = meanBoxes ((smoothMidState T boxes j).drop (tailStart boxes.length T))) ∧
       (∀ k, (smoothMidState T boxes j)[k]?
          = if k < j then (getSmoothenedBoxes boxes T)[k]? else boxes[k]?)) := by
  intro j hj
  have hmidlen : (smoothMidState T boxes j).length = boxes.length :=
    smoothGo_length T j 0 boxes
  have hget : (getSmoothenedBoxes boxes T).getD j box0
      = windowMean T (smoothMidState T boxes j) j := by
    rw [List.getD_eq_getElem?_getD, getSmoothened_getElem? boxes T hj]
    rfl
  refine ⟨?_, ?_, fun k => smoothMidState_getElem? boxes T (le_of_lt hj) k⟩
  · intro hle
    rw [hget]
    unfold windowMean
    rw [if_neg (by omega)]
    have heq : ((smoothMidState T boxes j).drop j).take T = (boxes.drop j).take T := by
      apply List.ext_getElem?
      intro m
      rw [List.getElem?_take, List.getElem?_take]
      by_cases hm : m < T
      · rw [if_pos hm, if_pos hm, List.getElem?_drop, List.getElem?_drop,
          smoothMidState_getElem? boxes T (le_of_lt hj) (j + m), if_neg (by omega)]
      · rw [if_neg hm, if_neg hm]
    rw [heq]
  · intro hgt
    rw [hget]
    unfold windowMean
    rw [if_pos (by omega), hmidlen]

/-- Witness for the amended C5: a 6-entry box list with T = 5; position 0 is
a non-tail frame, so its smoothed box is the mean of the first five original
boxes. -/
theorem smoothing_semantics_witness :
    ((0 : ℕ) <
      ([![0, 0, 0, 0], ![5, 5, 5, 5], ![5, 5, 5, 5], ![5, 5, 5, 5], ![5, 5, 5, 5],
        ![10, 10, 10, 10]] : List Box).length ∧
      (0 : ℕ) + 5 ≤
      ([![0, 0, 0, 0], ![5, 5, 5, 5], ![5, 5, 5, 5], ![5, 5, 5, 5], ![5, 5, 5, 5],
        ![10, 10, 10, 10]] : List Box).length) ∧
    (getSmoothenedBoxes
        [![0, 0, 0, 0], ![5, 5, 5, 5], ![5, 5, 5, 5], ![5, 5, 5, 5], ![5, 5, 5, 5],
          ![10, 10, 10, 10]] 5).getD 0 box0
      = meanBoxes ((([![0, 0, 0, 0], ![5, 5, 5, 5], ![5, 5, 5, 5], ![5, 5, 5, 5],
          ![5, 5, 5, 5], ![10, 10, 10, 10]] : List Box).drop 0).take 5) :=
  ⟨⟨by decide, by decide⟩,
    ((smoothing_semantics
      [![0, 0, 0, 0], ![5, 5, 5, 5], ![5, 5, 5, 5], ![5, 5, 5, 5], ![5, 5, 5, 5],
        ![10, 10, 10, 10]] 5 0 (by decide)).1) (by decide)⟩

/-- Counterexample to C5 as stated: a 5-frame run with identical-height
detections (2, 7, 7, 7, 7).  All 5 frames are sampled and interpolation keeps
them, so the tracked boxes are those values.  For frame 1 (a tail frame,
1 + 5 > 5) the claim prescribes the mean of the last 5 interpolated boxes,
i.e. 6 on the x2 coordinate, but the in-place loop of the code averages the
already-smoothed entry 0 (now 6) with the rest, giving 34/5. -/
theorem smoothing_semantics_cex :
    (faceDetectBoxes 100 100 0 0 0 0
        [![1, 1, 2, 2], ![1, 1, 7, 7], ![1, 1, 7, 7], ![1, 1, 7, 7], ![1, 1, 7, 7]]
        5 false).getD 1 box0
      ≠ meanBoxes ((trackedBoxList 5 (sampleIndices 5)
          (([![1, 1, 2, 2], ![1, 1, 7, 7], ![1, 1, 7, 7], ![1, 1, 7, 7], ![1, 1, 7, 7]] :
            List Box).map (clampBox 100 100 0 0 0 0))).drop (tailStart 5 5)) := by
  with_unfolding_all decide

/-! Compositor: pixels outside the box are untouched (C6) -/

/-- C6.  Compositing writes only the rectangle [y1, y2) x [x1, x2) of the
frame copy: every pixel strictly outside the box is byte-identical to the
source frame.  (datagen hands the loop a COPY of the source frame, line 187,
so the source frame value itself is never mutated; in this embedding the
output is a new frame value and the input f is returned verbatim outside
the box.) -/
theorem composite_outside_box (wk : ℤ → ℚ) (pRes f : Frame) (y1 y2 x1 x2 r c : ℕ)
    (h : ¬(y1 ≤ r ∧ r < y2 ∧ x1 ≤ c ∧ c < x2)) :
    composite wk pRes f y1 y2 x1 x2 r c = f r c := by
  unfold composite
  rw [if_neg h]

/-- Witness for C6 at concrete data: the pixel at (0, 5), above the box
[10,20) x [10,20), keeps its source value 5. -/
theorem composite_outside_box_witness :
    (¬((10 : ℕ) ≤ 0 ∧ 0 < 20 ∧ (10 : ℕ) ≤ 5 ∧ 5 < 20)) ∧
    composite (fun _ => 0) (fun _ _ => 7) (fun r c => (r : ℤ) + (c : ℤ)) 10 20 10 20 0 5
      = (fun r c => (r : ℤ) + (c : ℤ)) 0 5 :=
  ⟨by decide,
    composite_outside_box (fun _ => 0) (fun _ _ => 7) (fun r c => (r : ℤ) + (c : ℤ))
      10 20 10 20 0 5 (by decide)⟩

/-! Detector overload retry (C7) -/

/-- C7 evaluation at the failing input.  Detector: deterministic per batch,
succeeds on every batch except [2, 3] (out of memory at that batch); 4
sampled images, initial batch size 2.  The first pass extends predictions
with the results for images 0 and 1, then fails; the loop halves the batch
size and retries, but predictions is not reset (it is initialised outside the
while-loop, line 128), so the retry appends a full clean pass after the stale
prefix: 6 predictions for 4 images where a clean run has 4.  Zipping
against sampled_images then pairs images 2 and 3 with the predictions of
images 0 and 1.  A detector that always fails is fatal once the batch size
reaches 1. -/
theorem detector_retry_stale_predictions :
    faceDetectPredictions (fun b : List ℕ => if b = [2, 3] then none else some b)
        [0, 1, 2, 3] 2 = some [0, 1, 0, 1, 2, 3] ∧
    faceDetectPredictions (fun b : List ℕ => some b) [0, 1, 2, 3] 2
      = some [0, 1, 2, 3] ∧
    ([0, 1, 0, 1, 2, 3] : List ℕ) ≠ [0, 1, 2, 3] ∧
    List.zip [0, 1, 0, 1, 2, 3] [0, 1, 2, 3] = [(0, 0), (1, 1), (0, 2), (1, 3)] ∧
    faceDetectPredictions (fun _ : List ℕ => (none : Option (List ℕ))) [0, 1] 2 = none := by
  refine ⟨by decide, by decide, by decide, by decide, by decide⟩

/-! Compositor: blend mask bounds and vertical monotonicity (C8) -/

theorem blendStart_le_blendEnd (h : ℕ) : blendStart h ≤ blendEnd h :=
  Nat.div_le_div_right (by omega)

theorem vProfile_nonneg (h i : ℕ) : 0 ≤ vProfile h i := by
  unfold vProfile
  split
  · exact le_refl 0
  · split
    · apply div_nonneg
      · have : (blendStart h : ℚ) ≤ (i : ℚ) := by exact_mod_cast (by omega : blendStart h ≤ i)
        linarith
      · have : (blendStart h : ℚ) ≤ (blendEnd h : ℚ) := by
          exact_mod_cast blendStart_le_blendEnd h
        linarith
    · norm_num

theorem vProfile_le_one (h i : ℕ) : vProfile h i ≤ 1 := by
  unfold vProfile
  split
  · norm_num
  · split
    · rename_i h1 h2
      have hbs : blendStart h ≤ i := by omega
      have hlt : (i : ℚ) < (blendEnd h : ℚ) := by exact_mod_cast h2
      have hge : (blendStart h : ℚ) ≤ (i : ℚ) := by exact_mod_cast hbs
      have hpos : (0 : ℚ) < (blendEnd h : ℚ) - (blendStart h : ℚ) := by linarith
      rw [div_le_one hpos]
      linarith
    · exact le_refl 1

theorem vProfile_mono (h : ℕ) {i j : ℕ} (hij : i ≤ j) : vProfile h i ≤ vProfile h j := by
  by_cases hi1 : i < blendStart h
  · have hvi : vProfile h i = 0 := by unfold vProfile; rw [if_pos hi1]
    rw [hvi]
    exact vProfile_nonneg h j
  · by_cases hj2 : j < blendEnd h
    · have hi2 : i < blendEnd h := by omega
      have hjbs : ¬ j < blendStart h := by omega
      have hvi : vProfile h i
          = ((i : ℚ) - (blendStart h : ℚ)) / ((blendEnd h : ℚ) - (blendStart h : ℚ)) := by
        unfold vProfile
        rw [if_neg hi1, if_pos hi2]
      have hvj : vProfile h j
          = ((j : ℚ) - (blendStart h : ℚ)) / ((blendEnd h : ℚ) - (blendStart h : ℚ)) := by
        unfold vProfile
        rw [if_neg hjbs, if_pos hj2]
      rw [hvi, hvj]
      have hpos : (0 : ℚ) < (blendEnd h : ℚ) - (blendStart h : ℚ) := by
        have h1 : (i : ℚ) < (blendEnd h : ℚ) := by exact_mod_cast hi2
        have h2 : (blendStart h : ℚ) ≤ (i : ℚ) := by exact_mod_cast (by omega : blendStart h ≤ i)
        linarith
      rw [div_le_div_iff_of_pos_right hpos]
      have : (i : ℚ) ≤ (j : ℚ) := by exact_mod_cast hij
      linarith
    · have hbe := blendStart_le_blendEnd h
      have hvj : vProfile h j = 1 := by
        unfold vProfile
        rw [if_neg (by omega), if_neg (by omega)]
      rw [hvj]
      exact vProfile_le_one h i

theorem uProfile_nonneg (w j : ℕ) : 0 ≤ uProfile w j := by
  unfold uProfile
  apply mul_nonneg <;> split <;> first
    | positivity
    | norm_num

theorem uProfile_le_one (w j : ℕ) : uProfile w j ≤ 1 := by
  unfold uProfile
  have he : (0 : ℚ) < (edgeW w : ℚ) := by
    have : 1 ≤ edgeW w := le_max_left 1 _
    exact_mod_cast Nat.lt_of_lt_of_le Nat.zero_lt_one this
  have f1 : ∀ (m : ℕ), m < edgeW w → (m : ℚ) / (edgeW w : ℚ) ≤ 1 := by
    intro m hm
    rw [div_le_one he]
    exact_mod_cast le_of_lt hm
  have f0 : ∀ (m : ℕ), (0 : ℚ) ≤ (m : ℚ) / (edgeW w : ℚ) := fun m => by positivity
  split <;> split <;> rename_i h1 h2
  · calc ((j : ℚ) / (edgeW w : ℚ)) * (((w - 1 - j : ℕ) : ℚ) / (edgeW w : ℚ))
        ≤ 1 * 1 := by
          apply mul_le_mul (f1 j h1) (f1 _ h2) (f0 _) (by norm_num)
      _ = 1 := by norm_num
  · rw [mul_one]; exact f1 j h1
  · rw [one_mul]; exact f1 _ h2
  · rw [mul_one]

theorem reflIdx_lt (n : ℕ) (hn : 1 ≤ n) (p : ℤ) : reflIdx n p < n := by
  unfold reflIdx
  by_cases h1 : n ≤ 1
  · rw [if_pos h1]
    omega
  · rw [if_neg h1]
    have hn2 : 2 ≤ n := by omega
    have hP : (0 : ℤ) < 2 * (n : ℤ) - 2 := by
      have : (2 : ℤ) ≤ (n : ℤ) := by exact_mod_cast hn2
      omega
    have hs0 : 0 ≤ p % (2 * (n : ℤ) - 2) := Int.emod_nonneg p (by omega)
    have hsP : p % (2 * (n : ℤ) - 2) < 2 * (n : ℤ) - 2 := Int.emod_lt_of_pos p hP
    have hcast : (2 : ℤ) ≤ (n : ℤ) := by exact_mod_cast hn2
    split
    · omega
    · omega

/-- The 2D blur of the separable mask factorises into two 1D blurs. -/
theorem blurredMask_factor (wk : ℤ → ℚ) (h w : ℕ) (r c : ℕ) :
    blurredMask wk h w r c
      = blur1D wk h (vProfile h) r * blur1D wk w (uProfile w) c := by
  unfold blurredMask blur1D maskBase
  rw [Finset.sum_mul_sum]
  apply Finset.sum_congr rfl
  intro k _
  apply Finset.sum_congr rfl
  intro l _
  ring

theorem blur1D_nonneg (wk : ℤ → ℚ) (hnn : KernelNonneg wk) (n : ℕ) (v : ℕ → ℚ)
    (hv : ∀ i, 0 ≤ v i) (r : ℕ) : 0 ≤ blur1D wk n v r :=
  Finset.sum_nonneg fun k _ => mul_nonneg (hnn k) (hv _)

theorem blur1D_le_one (wk : ℤ → ℚ) (hnn : KernelNonneg wk) (hnorm : KernelNorm wk)
    (n : ℕ) (v : ℕ → ℚ) (hv : ∀ i, v i ≤ 1) (r : ℕ) : blur1D wk n v r ≤ 1 := by
  unfold blur1D
  calc ∑ k ∈ Finset.Icc (-(kRad : ℤ)) (kRad : ℤ), wk k * v (reflIdx n ((r : ℤ) + k))
      ≤ ∑ k ∈ Finset.Icc (-(kRad : ℤ)) (kRad : ℤ), wk k := by
        apply Finset.sum_le_sum
        intro k _
        calc wk k * v (reflIdx n ((r : ℤ) + k)) ≤ wk k * 1 :=
          mul_le_mul_of_nonneg_left (hv _) (hnn k)
        _ = wk k := mul_one _
    _ = 1 := hnorm

theorem telescopeIcc (v : ℕ → ℚ) :
    ∀ x, ∑ q ∈ Finset.Icc 1 x, (v q - v (q - 1)) = v x - v 0 := by
  intro x
  induction x with
  | zero => simp
  | succ m ih =>
    rw [Finset.sum_Icc_succ_top (by omega), ih]
    have hm : m + 1 - 1 = m := by omega
    rw [hm]
    ring

/-- Decomposition of a function value as its base value plus the increments
below the threshold. -/
theorem stepDecomp (v : ℕ → ℚ) (n : ℕ) (hn : 2 ≤ n) (x : ℕ) (hx : x < n) :
    v x = v 0 + ∑ q ∈ Finset.Icc 1 (n - 1), (if q ≤ x then v q - v (q - 1) else 0) := by
  have hsub : ∑ q ∈ Finset.Icc 1 (n - 1), (if q ≤ x then v q - v (q - 1) else 0)
      = ∑ q ∈ Finset.Icc 1 x, (v q - v (q - 1)) := by
    rw [← Finset.sum_filter]
    apply Finset.sum_congr ?_ (fun q _ => rfl)
    ext q
    simp only [Finset.mem_filter, Finset.mem_Icc]
    omega
  rw [hsub, telescopeIcc]
  ring

theorem emod_sub_emod_zero (P a b : ℤ) (h1 : a % P = 0) (h2 : b % P = 0) :
    (a - b) % P = 0 :=
  Int.emod_eq_zero_of_dvd
    (dvd_sub (Int.dvd_of_emod_eq_zero h1) (Int.dvd_of_emod_eq_zero h2))

theorem eq_zero_of_emod_zero_small (P x : ℤ) (hP : 0 < P) (h : x % P = 0)
    (hb1 : -P < x) (hb2 : x < P) : x = 0 := by
  obtain ⟨t, ht⟩ := Int.dvd_of_emod_eq_zero h
  rw [ht] at hb1 hb2 ⊢
  rcases lt_trichotomy t 0 with hlt | heq | hgt
  · exfalso
    have h2 : P * t ≤ P * (-1) := mul_le_mul_of_nonneg_left (by omega) (le_of_lt hP)
    have h3 : P * (-1) = -P := by ring
    linarith
  · rw [heq, mul_zero]
  · exfalso
    have h2 : P * 1 ≤ P * t := mul_le_mul_of_nonneg_left (by omega) (le_of_lt hP)
    have h3 : P * 1 = P := by ring
    linarith

/-- Lower bound for the wrapped kernel: it dominates any single coefficient
whose index lies in the residue class. -/
theorem wrapW_ge_single (wk : ℤ → ℚ) (P : ℤ) (hnn : KernelNonneg wk) (k1 c : ℤ)
    (hmem : k1 ∈ Finset.Icc (-(kRad : ℤ)) (kRad : ℤ)) (hcong : (k1 - c) % P = 0) :
    wk k1 ≤ wrapW wk P c := by
  unfold wrapW
  have h := Finset.single_le_sum (f := fun k => if (k - c) % P = 0 then wk k else 0)
    (fun k _ => by
      dsimp only
      split
      · exact hnn k
      · exact le_refl 0) hmem
  dsimp only at h
  rwa [if_pos hcong] at h

/-- When the period is at least the kernel diameter, each residue class meets
the kernel support in at most one index, so the wrapped kernel at a class
containing some index equals that one coefficient. -/
theorem wrapW_eq_single (wk : ℤ → ℚ) (P : ℤ) (hP : 2 * (kRad : ℤ) + 1 ≤ P) (k2 c : ℤ)
    (hmem : k2 ∈ Finset.Icc (-(kRad : ℤ)) (kRad : ℤ)) (hcong : (k2 - c) % P = 0) :
    wrapW wk P c = wk k2 := by
  have hk7 : ((kRad : ℕ) : ℤ) = 7 := rfl
  have hk2b := Finset.mem_Icc.mp hmem
  have hzero : ∀ b ∈ Finset.Icc (-(kRad : ℤ)) (kRad : ℤ), b ≠ k2 →
      (if (b - c) % P = 0 then wk b else 0) = 0 := by
    intro b hb hne
    have hbb := Finset.mem_Icc.mp hb
    by_cases hc : (b - c) % P = 0
    · exfalso
      have hz : ((b - c) - (k2 - c)) % P = 0 := emod_sub_emod_zero P _ _ hc hcong
      have he : (b - c) - (k2 - c) = b - k2 := by ring
      rw [he] at hz
      have := eq_zero_of_emod_zero_small P (b - k2) (by omega) hz (by omega) (by omega)
      omega
    · rw [if_neg hc]
  unfold wrapW
  rw [Finset.sum_eq_single_of_mem k2 hmem hzero, if_pos hcong]

/-- When the reflection period is at least the kernel diameter 2 kRad + 1, a
kernel that is non-increasing in the absolute index is wrapped unimodal: no
wrapping occurs, so each wrapped mass is a single coefficient (or zero). -/
theorem kernelWrapUnimodal_of_unimodal (wk : ℤ → ℚ) (P : ℤ)
    (hP : 2 * (kRad : ℤ) + 1 ≤ P) (hnn : KernelNonneg wk)
    (huni : KernelUnimodal wk) : KernelWrapUnimodal wk P := by
  have hk7 : ((kRad : ℕ) : ℤ) = 7 := rfl
  have hPpos : (0 : ℤ) < P := by omega
  intro c1 c2 hd
  unfold distP at hd
  have hwnn : 0 ≤ wrapW wk P c1 := by
    unfold wrapW
    apply Finset.sum_nonneg
    intro k _
    split
    · exact hnn k
    · exact le_refl 0
  by_cases hex : ∃ k ∈ Finset.Icc (-(kRad : ℤ)) (kRad : ℤ), (k - c2) % P = 0
  · obtain ⟨k2, hk2mem, hk2cong⟩ := hex
    have hk2b := Finset.mem_Icc.mp hk2mem
    have hs2 : c2 % P = k2 % P := by
      rw [Int.emod_eq_emod_iff_emod_sub_eq_zero]
      apply Int.emod_eq_zero_of_dvd
      have he : c2 - k2 = -(k2 - c2) := by ring
      rw [he, dvd_neg]
      exact Int.dvd_of_emod_eq_zero hk2cong
    have hk2mod0 : 0 ≤ k2 % P := Int.emod_nonneg k2 (by omega)
    have hk2modP : k2 % P < P := Int.emod_lt_of_pos k2 hPpos
    have hk2mod : k2 % P = k2 ∨ k2 % P = k2 + P := by
      by_cases hk2s : 0 ≤ k2
      · left
        exact Int.emod_eq_of_lt hk2s (by omega)
      · right
        have h3 : (k2 + P * 1) % P = k2 % P := Int.add_mul_emod_self_left k2 P 1
        have h4 : (k2 + P * 1) % P = k2 + P := by
          rw [mul_one]
          exact Int.emod_eq_of_lt (by omega) (by omega)
        rw [mul_one] at h3 h4
        omega
    have hs1_0 : 0 ≤ c1 % P := Int.emod_nonneg c1 (by omega)
    have hs1_P : c1 % P < P := Int.emod_lt_of_pos c1 hPpos
    rw [hs2] at hd
    have hb1 : ((c1 % P) - c1) % P = 0 := by
      rw [← Int.emod_eq_emod_iff_emod_sub_eq_zero, Int.emod_emod_of_dvd c1 dvd_rfl]
    have h2 := wrapW_eq_single wk P hP k2 c2 hk2mem hk2cong
    by_cases hs1c : c1 % P ≤ (kRad : ℤ)
    · have hk1mem : c1 % P ∈ Finset.Icc (-(kRad : ℤ)) (kRad : ℤ) := by
        rw [Finset.mem_Icc]
        omega
      have h1 := wrapW_ge_single wk P hnn (c1 % P) c1 hk1mem hb1
      have h3 : wk k2 ≤ wk (c1 % P) := by
        apply huni
        rcases hk2mod with hm | hm <;> omega
      rw [h2]
      linarith
    · have hk1mem : c1 % P - P ∈ Finset.Icc (-(kRad : ℤ)) (kRad : ℤ) := by
        rw [Finset.mem_Icc]
        constructor
        · rcases hk2mod with hm | hm <;> omega
        · omega
      have hk1cong : ((c1 % P - P) - c1) % P = 0 := by
        have he : (c1 % P - P) - c1 = ((c1 % P) - c1) - P * 1 := by ring
        rw [he]
        apply Int.emod_eq_zero_of_dvd
        exact dvd_sub (Int.dvd_of_emod_eq_zero hb1) (dvd_mul_right P 1)
      have h1 := wrapW_ge_single wk P hnn (c1 % P - P) c1 hk1mem hk1cong
      have h3 : wk k2 ≤ wk (c1 % P - P) := by
        apply huni
        rcases hk2mod with hm | hm <;> omega
      rw [h2]
      linarith
  · push_neg at hex
    have hzero : wrapW wk P c2 = 0 := by
      unfold wrapW
      apply Finset.sum_eq_zero
      intro k hk
      rw [if_neg (hex k hk)]
    rw [hzero]
    exact hwnn

/-- Jump structure of the threshold indicator along the reflected axis: it
rises exactly on the residue class of q - 1 and falls exactly on the residue
class of -q. -/
theorem stepInd_succ_sub (n q : ℕ) (hn : 2 ≤ n) (hq1 : 1 ≤ q) (hq2 : q ≤ n - 1) (p : ℤ) :
    stepInd n q (p + 1) - stepInd n q p
      = (if (p - ((q : ℤ) - 1)) % (2 * (n : ℤ) - 2) = 0 then (1 : ℚ) else 0)
      - (if (p + (q : ℤ)) % (2 * (n : ℤ) - 2) = 0 then (1 : ℚ) else 0) := by
  have hcast : (2 : ℤ) ≤ (n : ℤ) := by exact_mod_cast hn
  have hqcast : (1 : ℤ) ≤ (q : ℤ) := by exact_mod_cast hq1
  have hqcast2 : (q : ℤ) ≤ (n : ℤ) - 1 := by omega
  have hPpos : (0 : ℤ) < 2 * (n : ℤ) - 2 := by omega
  have hs0 : 0 ≤ p % (2 * (n : ℤ) - 2) := Int.emod_nonneg p (by omega)
  have hsP : p % (2 * (n : ℤ) - 2) < 2 * (n : ℤ) - 2 := Int.emod_lt_of_pos p hPpos
  have hone : (1 : ℤ) % (2 * (n : ℤ) - 2) = 1 := Int.emod_eq_of_lt (by omega) (by omega)
  have hrefl : ∀ x : ℤ, reflIdx n x
      = if x % (2 * (n : ℤ) - 2) ≤ (n : ℤ) - 1 then (x % (2 * (n : ℤ) - 2)).toNat
        else (2 * (n : ℤ) - 2 - x % (2 * (n : ℤ) - 2)).toNat := by
    intro x
    unfold reflIdx
    rw [if_neg (by omega : ¬ n ≤ 1)]
  have hc1 : ((p - ((q : ℤ) - 1)) % (2 * (n : ℤ) - 2) = 0)
      ↔ p % (2 * (n : ℤ) - 2) = (q : ℤ) - 1 := by
    rw [← Int.emod_eq_emod_iff_emod_sub_eq_zero,
      Int.emod_eq_of_lt (a := (q : ℤ) - 1) (by omega) (by omega)]
  have hc2 : ((p + (q : ℤ)) % (2 * (n : ℤ) - 2) = 0)
      ↔ p % (2 * (n : ℤ) - 2) = 2 * (n : ℤ) - 2 - (q : ℤ) := by
    have he : p + (q : ℤ) = p - (-(q : ℤ)) := by ring
    rw [he, ← Int.emod_eq_emod_iff_emod_sub_eq_zero]
    have h3 : ((-(q : ℤ)) + (2 * (n : ℤ) - 2)) % (2 * (n : ℤ) - 2)
        = (-(q : ℤ)) % (2 * (n : ℤ) - 2) := by
      have := Int.add_mul_emod_self_left (a := -(q : ℤ)) (b := 2 * (n : ℤ) - 2) (c := 1)
      simpa using this
    have h4 : (-(q : ℤ)) % (2 * (n : ℤ) - 2) = 2 * (n : ℤ) - 2 - (q : ℤ) := by
      rw [← h3, Int.emod_eq_of_lt (by omega) (by omega)]
      ring
    rw [h4]
  unfold stepInd
  rw [hrefl p, hrefl (p + 1)]
  simp only [hc1, hc2]
  by_cases hsp : p % (2 * (n : ℤ) - 2) = 2 * (n : ℤ) - 2 - 1
  · have hsucc : (p + 1) % (2 * (n : ℤ) - 2) = 0 := by
      rw [Int.add_emod, hone, hsp]
      have he : 2 * (n : ℤ) - 2 - 1 + 1 = 2 * (n : ℤ) - 2 := by ring
      rw [he, Int.emod_self]
    rw [hsucc]
    split_ifs <;> first | (exfalso; omega) | norm_num
  · have hsucc : (p + 1) % (2 * (n : ℤ) - 2) = p % (2 * (n : ℤ) - 2) + 1 := by
      rw [Int.add_emod, hone]
      exact Int.emod_eq_of_lt (by omega) (by omega)
    rw [hsucc]
    split_ifs <;> first | (exfalso; omega) | norm_num

/-- One blur step of the threshold mass moves kernel mass from the residue
class of -q - r onto the residue class of q - 1 - r. -/
theorem stepSum_succ_sub (wk : ℤ → ℚ) (n q : ℕ) (hn : 2 ≤ n) (hq1 : 1 ≤ q)
    (hq2 : q ≤ n - 1) (r : ℤ) :
    stepSum wk n q (r + 1) - stepSum wk n q r
      = wrapW wk (2 * (n : ℤ) - 2) ((q : ℤ) - 1 - r)
        - wrapW wk (2 * (n : ℤ) - 2) (-(q : ℤ) - r) := by
  unfold stepSum wrapW
  rw [← Finset.sum_sub_distrib, ← Finset.sum_sub_distrib]
  apply Finset.sum_congr rfl
  intro k _
  have h1 : r + 1 + k = (r + k) + 1 := by ring
  rw [h1, ← mul_sub, stepInd_succ_sub n q hn hq1 hq2 (r + k)]
  have e1 : (r + k - ((q : ℤ) - 1)) = (k - ((q : ℤ) - 1 - r)) := by ring
  have e2 : (r + k + (q : ℤ)) = (k - (-(q : ℤ) - r)) := by ring
  rw [e1, e2, mul_sub]
  simp only [mul_ite, mul_one, mul_zero]

/-- The rising residue class is at least as close to 0 modulo P as the
falling one, for every row r of the blurred mask interior. -/
theorem distP_compare (n q r : ℕ) (hn : 2 ≤ n) (hq1 : 1 ≤ q) (hq2 : q ≤ n - 1)
    (hr : r + 1 ≤ n - 1) :
    distP (2 * (n : ℤ) - 2) ((q : ℤ) - 1 - (r : ℤ))
      ≤ distP (2 * (n : ℤ) - 2) (-(q : ℤ) - (r : ℤ)) := by
  have hcast : (2 : ℤ) ≤ (n : ℤ) := by exact_mod_cast hn
  have hq1c : (1 : ℤ) ≤ (q : ℤ) := by exact_mod_cast hq1
  have hq2c : (q : ℤ) ≤ (n : ℤ) - 1 := by omega
  have hrc : (r : ℤ) + 1 ≤ (n : ℤ) - 1 := by omega
  have hbmod : (-(q : ℤ) - (r : ℤ)) % (2 * (n : ℤ) - 2)
      = -(q : ℤ) - (r : ℤ) + (2 * (n : ℤ) - 2) := by
    have h3 : ((-(q : ℤ) - (r : ℤ)) + (2 * (n : ℤ) - 2)) % (2 * (n : ℤ) - 2)
        = (-(q : ℤ) - (r : ℤ)) % (2 * (n : ℤ) - 2) := by
      have := Int.add_mul_emod_self_left (a := -(q : ℤ) - (r : ℤ))
        (b := 2 * (n : ℤ) - 2) (c := 1)
      simpa using this
    rw [← h3, Int.emod_eq_of_lt (by omega) (by omega)]
  by_cases ha : 0 ≤ (q : ℤ) - 1 - (r : ℤ)
  · have hamod : ((q : ℤ) - 1 - (r : ℤ)) % (2 * (n : ℤ) - 2) = (q : ℤ) - 1 - (r : ℤ) :=
      Int.emod_eq_of_lt ha (by omega)
    unfold distP
    rw [hamod, hbmod]
    omega
  · have hamod : ((q : ℤ) - 1 - (r : ℤ)) % (2 * (n : ℤ) - 2)
        = (q : ℤ) - 1 - (r : ℤ) + (2 * (n : ℤ) - 2) := by
      have h3 : (((q : ℤ) - 1 - (r : ℤ)) + (2 * (n : ℤ) - 2)) % (2 * (n : ℤ) - 2)
          = ((q : ℤ) - 1 - (r : ℤ)) % (2 * (n : ℤ) - 2) := by
        have := Int.add_mul_emod_self_left (a := (q : ℤ) - 1 - (r : ℤ))
          (b := 2 * (n : ℤ) - 2) (c := 1)
        simpa using this
      rw [← h3, Int.emod_eq_of_lt (by omega) (by omega)]
    unfold distP
    rw [hamod, hbmod]
    omega

/-- Abel-style decomposition of the blurred profile into increments times
threshold masses. -/
theorem blur1D_decomp (wk : ℤ → ℚ) (n : ℕ) (hn : 2 ≤ n) (v : ℕ → ℚ) (r : ℕ) :
    blur1D wk n v r
      = v 0 * (∑ k ∈ Finset.Icc (-(kRad : ℤ)) (kRad : ℤ), wk k)
        + ∑ q ∈ Finset.Icc 1 (n - 1), (v q - v (q - 1)) * stepSum wk n q (r : ℤ) := by
  unfold blur1D stepSum
  have step1 : ∑ k ∈ Finset.Icc (-(kRad : ℤ)) (kRad : ℤ), wk k * v (reflIdx n ((r : ℤ) + k))
      = ∑ k ∈ Finset.Icc (-(kRad : ℤ)) (kRad : ℤ),
          (wk k * v 0 + ∑ q ∈ Finset.Icc 1 (n - 1),
            (v q - v (q - 1)) * (wk k * stepInd n q ((r : ℤ) + k))) := by
    apply Finset.sum_congr rfl
    intro k _
    rw [stepDecomp v n hn _ (reflIdx_lt n (by omega) _), mul_add, Finset.mul_sum]
    congr 1
    apply Finset.sum_congr rfl
    intro q _
    unfold stepInd
    split
    · ring
    · ring
  rw [step1, Finset.sum_add_distrib]
  congr 1
  · rw [← Finset.sum_mul, mul_comm]
  · rw [Finset.sum_comm]
    apply Finset.sum_congr rfl
    intro q _
    rw [Finset.mul_sum]

theorem blur1D_mono_step (wk : ℤ → ℚ) (n : ℕ) (hn : 2 ≤ n)
    (hwu : KernelWrapUnimodal wk (2 * (n : ℤ) - 2))
    (v : ℕ → ℚ) (hv : ∀ i j, i ≤ j → v i ≤ v j) (r : ℕ) (hr : r + 1 ≤ n - 1) :
    blur1D wk n v r ≤ blur1D wk n v (r + 1) := by
  rw [blur1D_decomp wk n hn v r, blur1D_decomp wk n hn v (r + 1)]
  apply add_le_add_left
  apply Finset.sum_le_sum
  intro q hq
  rw [Finset.mem_Icc] at hq
  have hd : 0 ≤ v q - v (q - 1) := by
    have := hv (q - 1) q (by omega)
    linarith
  apply mul_le_mul_of_nonneg_left ?_ hd
  have hcast : (((r + 1 : ℕ)) : ℤ) = (r : ℤ) + 1 := by push_cast; ring
  rw [hcast]
  have hdiff := stepSum_succ_sub wk n q hn hq.1 hq.2 (r : ℤ)
  have hcmp := distP_compare n q r hn hq.1 hq.2 hr
  have hle := hwu _ _ hcmp
  linarith

theorem blur1D_mono (wk : ℤ → ℚ) (n : ℕ) (hn : 2 ≤ n)
    (hwu : KernelWrapUnimodal wk (2 * (n : ℤ) - 2))
    (v : ℕ → ℚ) (hv : ∀ i j, i ≤ j → v i ≤ v j) :
    ∀ r1 r2, r1 ≤ r2 → r2 < n → blur1D wk n v r1 ≤ blur1D wk n v r2 := by
  intro r1 r2 h12 h2n
  induction h12 with
  | refl => exact le_refl _
  | @step m hm ih =>
    calc blur1D wk n v r1 ≤ blur1D wk n v m := ih (by omega)
      _ ≤ blur1D wk n v (m + 1) := blur1D_mono_step wk n hn hwu v hv m (by omega)

/-- C8 (amended).  For every box width w and every blur kernel with the
properties of the cv2 Gaussian kernel (nonnegative, total mass 1, and
non-increasing in the absolute index), every value of the blurred blend mask
lies in [0, 1] for every box height h; and for every height h of at least 9 -
the heights whose reflection period 2h-2 is at least the kernel diameter 15,
so that the reflect-101 blur cannot wrap the kernel around the short axis -
down each column in the central 85 percent of the width (in fact down every
column) the mask is monotonically non-decreasing from top to bottom.  For
smaller heights the wrapped kernel can break the monotonicity (see the
counterexample at h = 3 with the Gaussian kernel). -/
theorem mask_bounds_and_monotone (wk : ℤ → ℚ) (h w : ℕ)
    (hnn : KernelNonneg wk) (hnorm : KernelNorm wk)
    (huni : KernelUnimodal wk) :
    (∀ r c, 0 ≤ blurredMask wk h w r c ∧ blurredMask wk h w r c ≤ 1) ∧
    (9 ≤ h → ∀ c, 3 * w ≤ 40 * c → 40 * c ≤ 37 * w →
      ∀ r1 r2, r1 ≤ r2 → r2 < h → blurredMask wk h w r1 c ≤ blurredMask wk h w r2 c) := by
  constructor
  · intro r c
    rw [blurredMask_factor]
    have hv0 := blur1D_nonneg wk hnn h (vProfile h) (vProfile_nonneg h) r
    have hv1 := blur1D_le_one wk hnn hnorm h (vProfile h) (vProfile_le_one h) r
    have hu0 := blur1D_nonneg wk hnn w (uProfile w) (uProfile_nonneg w) c
    have hu1 := blur1D_le_one wk hnn hnorm w (uProfile w) (uProfile_le_one w) c
    constructor
    · exact mul_nonneg hv0 hu0
    · calc blur1D wk h (vProfile h) r * blur1D wk w (uProfile w) c
          ≤ 1 * 1 := mul_le_mul hv1 hu1 hu0 (by norm_num)
        _ = 1 := by norm_num
  · intro hh c _ _ r1 r2 h12 h2h
    have hwu : KernelWrapUnimodal wk (2 * (h : ℤ) - 2) := by
      apply kernelWrapUnimodal_of_unimodal wk _ ?_ hnn huni
      have hk7 : ((kRad : ℕ) : ℤ) = 7 := rfl
      have hhc : (9 : ℤ) ≤ (h : ℤ) := by exact_mod_cast hh
      omega
    rw [blurredMask_factor, blurredMask_factor]
    have hu0 := blur1D_nonneg wk hnn w (uProfile w) (uProfile_nonneg w) c
    apply mul_le_mul_of_nonneg_right ?_ hu0
    exact blur1D_mono wk h (by omega) hwu (vProfile h)
      (fun i j hij => vProfile_mono h hij) r1 r2 h12 h2h

/-- Witness for C8: the triangular radius-7 kernel (nonnegative, normalised,
non-increasing in the absolute index) and a 9 x 9 box, the shortest box not
excluded by the height restriction. -/
theorem mask_bounds_and_monotone_witness :
    (KernelNonneg wkTri ∧ KernelNorm wkTri ∧ KernelUnimodal wkTri) ∧
    ((∀ r c, 0 ≤ blurredMask wkTri 9 9 r c ∧ blurredMask wkTri 9 9 r c ≤ 1) ∧
    (9 ≤ 9 → ∀ c, 3 * 9 ≤ 40 * c → 40 * c ≤ 37 * 9 →
      ∀ r1 r2, r1 ≤ r2 → r2 < 9 →
        blurredMask wkTri 9 9 r1 c ≤ blurredMask wkTri 9 9 r2 c)) := by
  have hnn : KernelNonneg wkTri := by
    intro k
    unfold wkTri
    split
    · apply div_nonneg ?_ (by norm_num)
      rename_i hk
      have : ((k.natAbs : ℚ)) ≤ 7 := by exact_mod_cast hk
      linarith
    · exact le_refl 0
  have hnorm : KernelNorm wkTri := by
    unfold KernelNorm
    with_unfolding_all decide
  have huni : KernelUnimodal wkTri := by
    intro i j hij
    unfold wkTri
    by_cases hj : j.natAbs ≤ 7
    · rw [if_pos hj, if_pos (by omega)]
      rw [div_le_div_iff_of_pos_right (by norm_num : (0 : ℚ) < 64)]
      have hc : ((i.natAbs : ℚ)) ≤ ((j.natAbs : ℚ)) := by exact_mod_cast hij
      linarith
    · rw [if_neg hj]
      split
      · apply div_nonneg ?_ (by norm_num)
        rename_i hk
        have : ((i.natAbs : ℚ)) ≤ 7 := by exact_mod_cast hk
        linarith
      · exact le_refl 0
  exact ⟨⟨hnn, hnorm, huni⟩, mask_bounds_and_monotone wkTri 9 9 hnn hnorm huni⟩

set_option maxRecDepth 8192 in
/-- Counterexample to the unrestricted C8 monotonicity: with the rational
Gaussian kernel (the correctly rounded cv2.getGaussianKernel(15, 5)
coefficients, normalised) on a box of height 3 and width 9, the reflection
period is 4, the kernel wraps, and the mask at the central column 4 strictly
decreases from row 0 to row 1 even though 0 <= 1 < 3 and column 4 lies in the
central 85 percent of the width. -/
theorem mask_monotone_cex :
    3 * 9 ≤ 40 * 4 ∧ 40 * 4 ≤ 37 * 9 ∧ (0 : ℕ) ≤ 1 ∧ 1 < 3 ∧
      blurredMask gaussK 3 9 1 4 < blurredMask gaussK 3 9 0 4 := by
  refine ⟨by norm_num, by norm_num, by norm_num, by norm_num, ?_⟩
  with_unfolding_all decide

end W2L
